import Mathlib

/-!
Shallow embedding of seastar's fair queue (include/seastar/core/fair_queue.hh).

The header in src/ declares `fair_queue_ticket`, `priority_class` and
`fair_queue`; the inline parts (share clamping in the `priority_class`
constructor and `update_shares`, `class_compare`, the `config` defaults) are
embedded from the source directly.  The member-function bodies live in
fair_queue.cc, which is not part of src/; those definitions are modelled from
the specification (spec.md sections 3 and 4) and carry a doc comment starting
with `Modelled from the spec:`.

Conventions of the embedding:
- C++ `uint32_t` / `unsigned` values are `Nat` with arithmetic reduced
  modulo `2^32` (`uadd`, `usub`) wherever overflow can occur.
- the C++ `float _accumulated` is modelled over `ℚ` (exact arithmetic; the
  claims treated here concern only the comparison structure of accumulated
  virtual service, not floating-point rounding).
- `noncopyable_function<void()>` continuations are opaque; each request
  carries an abstract identity `fid`, and "invoking the continuation" is
  recorded in a ghost history field.
- shared `priority_class_ptr` handles are modelled as `Nat` identifiers
  allocated by a `next_id` counter; the registry `_all_classes` together with
  the pointed-to class state is an association list `List (Nat × priority_class)`.
- the `fair_queue` state carries three ghost history fields (`outstanding`,
  `served`, `submitted`) that record admitted-but-unfinished tickets, the
  order of continuation invocations and the order of `queue` calls.  They are
  write-only from the point of view of the embedded code: no operation ever
  reads them, they only let trace properties be stated.
- real time does not appear: the decay pass of `dispatch_requests`
  (`normalize_stats`) is parametrised by the positive rescaling factor it
  applies, abstracting the clock/τ computation.
-/

/-- Modulus of C++ `uint32_t` / `unsigned` arithmetic, `2^32`. -/
def U32 : Nat := 4294967296

/-- Wrap-around addition of two `uint32_t` values. -/
def uadd (a b : Nat) : Nat := (a + b) % U32

/-- Wrap-around subtraction of two `uint32_t` values (may underflow, as the
underlying C++ unsigned subtraction does). -/
def usub (a b : Nat) : Nat := (a % U32 + (U32 - b % U32)) % U32

/-- Embeds `fair_queue_ticket` (fair_queue.hh lines 40-92): a pair of
`uint32_t` quantities `_weight` and `_size`. -/
structure fair_queue_ticket where
  weight : Nat
  size : Nat
  deriving DecidableEq, Repr

/-- Modelled from the spec: `fair_queue_ticket::operator+` (body in
fair_queue.cc, not in src/); "Addition/subtraction are component-wise"
(spec §3), on `uint32_t` components. -/
def fair_queue_ticket.add (a b : fair_queue_ticket) : fair_queue_ticket :=
  ⟨uadd a.weight b.weight, uadd a.size b.size⟩

/-- Modelled from the spec: `fair_queue_ticket::operator-` (body in
fair_queue.cc, not in src/); component-wise `uint32_t` subtraction, which
"may underflow if misused by the caller" (spec §3). -/
def fair_queue_ticket.sub (a b : fair_queue_ticket) : fair_queue_ticket :=
  ⟨usub a.weight b.weight, usub a.size b.size⟩

/-- Modelled from the spec: `fair_queue_ticket::strictly_less` (body in
fair_queue.cc, not in src/); "holds only if both components of `a` are less
than the corresponding components of `b`" (spec §3, and the doc comment at
fair_queue.hh lines 62-68). -/
def fair_queue_ticket.strictly_less (a b : fair_queue_ticket) : Bool :=
  decide (a.weight < b.weight) && decide (a.size < b.size)

/-- Modelled from the spec: `fair_queue_ticket::operator bool` (body in
fair_queue.cc, not in src/); a ticket is non-zero if at least one component
is non-zero (spec §3). -/
def fair_queue_ticket.nonzero (a : fair_queue_ticket) : Bool :=
  decide (a.weight ≠ 0) || decide (a.size ≠ 0)

/-- Modelled from the spec: `fair_queue_ticket::normalize` (body in
fair_queue.cc, not in src/); "returns a scalar equal to the sum of the
per-dimension ratios of the ticket against the axis (weight-ratio +
size-ratio)" (spec §3).  The C++ `float` result is modelled over `ℚ`. -/
def fair_queue_ticket.normalize (t axis : fair_queue_ticket) : ℚ :=
  (t.weight : ℚ) / (axis.weight : ℚ) + (t.size : ℚ) / (axis.size : ℚ)

/-- Embeds `priority_class::request` (fair_queue.hh lines 99-102): a pending
continuation `func` (abstracted to its identity `fid`) with its cost `desc`. -/
structure priority_class.request where
  fid : Nat
  desc : fair_queue_ticket
  deriving DecidableEq, Repr

/-- Embeds `priority_class` (fair_queue.hh lines 98-121): `_shares`,
`_accumulated` (C++ `float`, modelled over `ℚ`), the pending FIFO `_queue`
(front at the head of the list) and the `_queued` flag. -/
structure priority_class where
  shares : Nat
  accumulated : ℚ
  queue : List priority_class.request
  queued : Bool
  deriving DecidableEq, Repr

/-- Embeds the `priority_class(uint32_t shares)` constructor
(fair_queue.hh line 110): `_shares(std::max(shares, 1u))`, all other fields
default-initialized (`_accumulated = 0`, empty `_queue`, `_queued = false`). -/
def priority_class.make (shares : Nat) : priority_class :=
  { shares := max shares 1, accumulated := 0, queue := [], queued := false }

/-- Embeds `priority_class::update_shares` (fair_queue.hh lines 118-120):
`_shares = (std::max(shares, 1u))`. -/
def priority_class.update_shares (pc : priority_class) (shares : Nat) : priority_class :=
  { pc with shares := max shares 1 }

/-- Modelled from the spec: the per-class rescaling step of
`fair_queue::normalize_stats` (body in fair_queue.cc, not in src/); the decay
pass rescales every class's `accumulated` value by a common factor
(spec §4.3 step 1). -/
def priority_class.decay (pc : priority_class) (f : ℚ) : priority_class :=
  { pc with accumulated := pc.accumulated * f }

/-- Embeds `fair_queue::config` (fair_queue.hh lines 159-173): capacity limits
`max_req_count` and `max_bytes_count`, both `unsigned`, defaulting to
`std::numeric_limits<unsigned>::max()`.  The decay window `tau` is a real-time
quantity and is abstracted (see the module comment).  Named `fq_config` here
because the C++ nested name `fair_queue::config` would collide with the
`config` field projection. -/
structure fq_config where
  max_req_count : Nat := 4294967295
  max_bytes_count : Nat := 4294967295
  deriving DecidableEq, Repr

/-- Embeds the state of `fair_queue` (fair_queue.hh lines 183-194), plus the
handle allocator `next_id` and the ghost history fields described in the
module comment.  `handles` is the contents of the `_handles` priority queue
(as a list of class identifiers; its ordered-structure behaviour is modelled
by `fair_queue.top_priority_class`), `all_classes` is the registry together
with the pointed-to class state. -/
structure fair_queue where
  config : fq_config
  maximum_capacity : fair_queue_ticket
  current_capacity : fair_queue_ticket
  resources_executing : fair_queue_ticket
  resources_queued : fair_queue_ticket
  requests_executing : Nat
  requests_queued : Nat
  handles : List Nat
  all_classes : List (Nat × priority_class)
  next_id : Nat
  outstanding : List fair_queue_ticket
  served : List (Nat × Nat)
  submitted : List (Nat × Nat)
  deriving DecidableEq, Repr

/-- Looks a class identifier up in the registry (models dereferencing a
`priority_class_ptr` held in `_all_classes`). -/
def lookupClass : List (Nat × priority_class) → Nat → Option priority_class
  | [], _ => none
  | kp :: rest, cid => if kp.1 = cid then some kp.2 else lookupClass rest cid

/-- Replaces the state of the class with the given identifier (models a
mutation through a shared `priority_class_ptr`). -/
def updateClass : List (Nat × priority_class) → Nat → priority_class → List (Nat × priority_class)
  | [], _, _ => []
  | kp :: rest, cid, pc => if kp.1 = cid then (kp.1, pc) :: rest else kp :: updateClass rest cid pc

/-- Removes the class with the given identifier from the registry (models
`_all_classes.erase`). -/
def removeClass : List (Nat × priority_class) → Nat → List (Nat × priority_class)
  | [], _ => []
  | kp :: rest, cid => if kp.1 = cid then removeClass rest cid else kp :: removeClass rest cid

/-- Sums a per-class measure over the registry. -/
def classSum (f : priority_class → Nat) (cs : List (Nat × priority_class)) : Nat :=
  (cs.map (fun kp => f kp.2)).sum

/-- Total weight of a list of pending requests. -/
def reqWeightSum (l : List priority_class.request) : Nat :=
  (l.map (fun r => r.desc.weight)).sum

/-- Total size of a list of pending requests. -/
def reqSizeSum (l : List priority_class.request) : Nat :=
  (l.map (fun r => r.desc.size)).sum

/-- Total pending weight over all registered classes. -/
def pendW (cs : List (Nat × priority_class)) : Nat :=
  classSum (fun pc => reqWeightSum pc.queue) cs

/-- Total pending size over all registered classes. -/
def pendS (cs : List (Nat × priority_class)) : Nat :=
  classSum (fun pc => reqSizeSum pc.queue) cs

/-- Total number of pending requests over all registered classes. -/
def pendCount (cs : List (Nat × priority_class)) : Nat :=
  classSum (fun pc => pc.queue.length) cs

/-- Total weight of a list of tickets. -/
def ticketWeightSum (l : List fair_queue_ticket) : Nat :=
  (l.map (fun t => t.weight)).sum

/-- Total size of a list of tickets. -/
def ticketSizeSum (l : List fair_queue_ticket) : Nat :=
  (l.map (fun t => t.size)).sum

/-- Accumulated virtual service of a class identifier (0 for an identifier
that is not registered; under the reachability invariant every member of
`handles` is registered). -/
def fair_queue.accOf (s : fair_queue) (cid : Nat) : ℚ :=
  match lookupClass s.all_classes cid with
  | none => 0
  | some pc => pc.accumulated

/-- Selects, from a starting candidate and a list of alternatives, the first
element of least measure. -/
def pickMin (g : Nat → ℚ) : Nat → List Nat → Nat
  | best, [] => best
  | best, c :: rest => pickMin g (if g c < g best then c else best) rest

/-- Embeds the top of the `_handles` priority queue: with `class_compare`
(fair_queue.hh lines 177-181, `lhs->_accumulated > rhs->_accumulated`) a
`std::priority_queue` surfaces a class of least `_accumulated`; ties are
broken in an unspecified way (spec §3), modelled as first-in-list. -/
def fair_queue.top_priority_class (s : fair_queue) : Option Nat :=
  match s.handles with
  | [] => none
  | h :: rest => some (pickMin s.accOf h rest)

/-- Modelled from the spec: the virtual-service increment of a dispatched
request (spec §4.3 step 2d): `ticket.normalize(axis)` "where `axis` is a
per-class baseline scaled inversely by its share weight".  The exact numeric
scheme is left open by the spec (§9); the baseline is taken to be the maximum
capacity ticket, scaled by the class's shares so that higher shares yield a
smaller increment. -/
def fair_queue.acc_increment (s : fair_queue) (pc : priority_class) (desc : fair_queue_ticket) : ℚ :=
  desc.normalize ⟨s.maximum_capacity.weight * pc.shares, s.maximum_capacity.size * pc.shares⟩

/-- Modelled from the spec: `fair_queue::can_dispatch` (body in fair_queue.cc,
not in src/); admission is possible when "the dispatch structure has at least
one entry, and admitting the oldest pending item of the top entry would not
push resources-currently-executing, request-count, or byte-count past the
configured maximum capacity" (spec §4.3 step 2). -/
def fair_queue.can_dispatch (s : fair_queue) : Bool :=
  match s.top_priority_class with
  | none => false
  | some cid =>
    match lookupClass s.all_classes cid with
    | none => false
    | some pc =>
      match pc.queue with
      | [] => false
      | r :: _ =>
        decide (s.resources_executing.weight + r.desc.weight ≤ s.maximum_capacity.weight) &&
        decide (s.resources_executing.size + r.desc.size ≤ s.maximum_capacity.size) &&
        decide (s.requests_executing + 1 ≤ s.config.max_req_count)

/-- Modelled from the spec: one iteration of the dispatch loop of
`fair_queue::dispatch_requests` (body in fair_queue.cc, not in src/),
spec §4.3 steps 2a-2f: pop the top class from the dispatch structure, pop the
oldest pending request of that class, move its cost from queued to executing
totals, increase the class's `accumulated`, invoke the continuation (recorded
in the ghost `served` log), and re-link the class into the dispatch structure
exactly when it still has pending entries, updating its `_queued` flag
accordingly.  On a state where no admission is possible the function is the
identity (the loop only applies it under `can_dispatch`). -/
def fair_queue.dispatch_one (s : fair_queue) : fair_queue :=
  match s.top_priority_class with
  | none => s
  | some cid =>
    match lookupClass s.all_classes cid with
    | none => s
    | some pc =>
      match pc.queue with
      | [] => s
      | r :: rest =>
        { s with
          all_classes := updateClass s.all_classes cid
            { pc with
              queue := rest,
              accumulated := pc.accumulated + s.acc_increment pc r.desc,
              queued := !rest.isEmpty },
          handles := if rest.isEmpty then s.handles.erase cid else s.handles.erase cid ++ [cid],
          resources_queued := s.resources_queued.sub r.desc,
          resources_executing := s.resources_executing.add r.desc,
          requests_queued := usub s.requests_queued 1,
          requests_executing := uadd s.requests_executing 1,
          outstanding := s.outstanding ++ [r.desc],
          served := s.served ++ [(cid, r.fid)] }

/-- Fuel-bounded form of the dispatch loop: repeat `dispatch_one` while
`can_dispatch` holds.  `fair_queue.dispatch_requests` supplies enough fuel
for the loop to run until admission stops being possible. -/
def fair_queue.dispatch_loop : Nat → fair_queue → fair_queue
  | 0, s => s
  | n + 1, s => if s.can_dispatch then fair_queue.dispatch_loop n s.dispatch_one else s

/-- Modelled from the spec: the decay pass of `fair_queue::normalize_stats`
(body in fair_queue.cc, not in src/), spec §4.3 step 1: rescale every
registered class's `accumulated` value by a common factor.  The factor is a
parameter, abstracting the clock/τ computation (a factor of 1 models a call
in which no decay interval has elapsed). -/
def fair_queue.normalize_stats (s : fair_queue) (f : ℚ) : fair_queue :=
  { s with all_classes := s.all_classes.map (fun kp => (kp.1, kp.2.decay f)) }

/-- Modelled from the spec: `fair_queue::dispatch_requests` (body in
fair_queue.cc, not in src/), spec §4.3: perform the decay pass, then
repeatedly admit the oldest pending item of the least-served linked class
while admission is possible.  Each admission removes one pending request, so
the total pending count bounds the number of iterations and is used as
fuel. -/
def fair_queue.dispatch_requests (s : fair_queue) (f : ℚ) : fair_queue :=
  fair_queue.dispatch_loop (pendCount s.all_classes) (s.normalize_stats f)

/-- Modelled from the spec: `fair_queue::queue` (body in fair_queue.cc, not in
src/), spec §4.3: append `(ticket, continuation)` to the class's pending FIFO,
increment the global queued-resource and queued-request counters by the ticket
and by 1, and link the class into the dispatch structure (marking it queued)
if it was not already linked.  The `queue` call itself never invokes the
continuation: the ghost `served` log is untouched (only the ghost `submitted`
log records the call).  A call with an unregistered identifier has no C++
counterpart (the caller holds a live handle) and is modelled as the
identity. -/
def fair_queue.queue (s : fair_queue) (cid : Nat) (desc : fair_queue_ticket) (fid : Nat) : fair_queue :=
  match lookupClass s.all_classes cid with
  | none => s
  | some pc =>
    { s with
      all_classes := updateClass s.all_classes cid
        { pc with queue := pc.queue ++ [⟨fid, desc⟩], queued := true },
      handles := if pc.queued then s.handles else s.handles ++ [cid],
      resources_queued := s.resources_queued.add desc,
      requests_queued := uadd s.requests_queued 1,
      submitted := s.submitted ++ [(cid, fid)] }

/-- Modelled from the spec: `fair_queue::notify_requests_finished` (body in
fair_queue.cc, not in src/), spec §4.3: decrement the global
executing-resource and executing-request counters by the ticket and by
`nr`. -/
def fair_queue.notify_requests_finished (s : fair_queue) (desc : fair_queue_ticket) (nr : Nat) : fair_queue :=
  { s with
    resources_executing := s.resources_executing.sub desc,
    requests_executing := usub s.requests_executing nr }

/-- Modelled from the spec: `fair_queue::register_priority_class` (body in
fair_queue.cc, not in src/), spec §4.3: create a class with the clamped share
value (the clamping itself is the inline `priority_class` constructor,
fair_queue.hh line 110), insert it into the registry, and return its handle.
Registration is always admitted. -/
def fair_queue.register_priority_class (s : fair_queue) (shares : Nat) : fair_queue × Nat :=
  ({ s with
      all_classes := (s.next_id, priority_class.make shares) :: s.all_classes,
      next_id := s.next_id + 1 },
   s.next_id)

/-- Modelled from the spec: `fair_queue::unregister_priority_class` (body in
fair_queue.cc, not in src/), spec §4.3: remove the class from the registry;
the precondition that the class's pending queue is empty is "fatal/asserted"
(spec §4.3), modelled as the `none` result.  Erasing an identifier that is
not registered mirrors `_all_classes.erase` of an absent element (a no-op). -/
def fair_queue.unregister_priority_class (s : fair_queue) (cid : Nat) : Option fair_queue :=
  match lookupClass s.all_classes cid with
  | none => some { s with all_classes := removeClass s.all_classes cid }
  | some pc =>
    if pc.queue = [] then
      some { s with all_classes := removeClass s.all_classes cid }
    else
      none

/-- Applies `priority_class::update_shares` through a handle (the C++ caller
invokes it directly on the shared `priority_class_ptr`). -/
def fair_queue.update_shares_at (s : fair_queue) (cid : Nat) (shares : Nat) : fair_queue :=
  match lookupClass s.all_classes cid with
  | none => s
  | some pc => { s with all_classes := updateClass s.all_classes cid (pc.update_shares shares) }

/-- Embeds `fair_queue::resources_currently_waiting` (fair_queue.hh line 230):
the resources (weight, size) currently queued over all classes. -/
def fair_queue.resources_currently_waiting (s : fair_queue) : fair_queue_ticket :=
  s.resources_queued

/-- Embeds `fair_queue::resources_currently_executing` (fair_queue.hh
line 233): the resources (weight, size) currently executing. -/
def fair_queue.resources_currently_executing (s : fair_queue) : fair_queue_ticket :=
  s.resources_executing

/-- Modelled from the spec: the `fair_queue(config)` constructor (body in
fair_queue.cc, not in src/); stores the configuration and derives the maximum
capacity ticket from `max_req_count` / `max_bytes_count` (spec §3: "derived
maximum capacity ticket").  Both fields are `unsigned`, hence reduced mod
`2^32`. -/
def fair_queue.start (cfg : fq_config) : fair_queue :=
  { config := ⟨cfg.max_req_count % U32, cfg.max_bytes_count % U32⟩,
    maximum_capacity := ⟨cfg.max_req_count % U32, cfg.max_bytes_count % U32⟩,
    current_capacity := ⟨cfg.max_req_count % U32, cfg.max_bytes_count % U32⟩,
    resources_executing := ⟨0, 0⟩,
    resources_queued := ⟨0, 0⟩,
    requests_executing := 0,
    requests_queued := 0,
    handles := [],
    all_classes := [],
    next_id := 0,
    outstanding := [],
    served := [],
    submitted := [] }

/-- Fids of the requests of a class served (continuation invoked) so far, in
invocation order (ghost observation). -/
def servedFids (s : fair_queue) (cid : Nat) : List Nat :=
  (s.served.filter (fun p => p.1 == cid)).map (fun p => p.2)

/-- Fids of the requests submitted to a class by `queue` so far, in submission
order (ghost observation). -/
def submittedFids (s : fair_queue) (cid : Nat) : List Nat :=
  (s.submitted.filter (fun p => p.1 == cid)).map (fun p => p.2)

/-- Fids of the requests currently pending in a class's FIFO, oldest first. -/
def pendingFids (s : fair_queue) (cid : Nat) : List Nat :=
  match lookupClass s.all_classes cid with
  | none => []
  | some pc => pc.queue.map (fun r => r.fid)

/-- States of the fair queue reachable from construction by the public
operations.  `notify` is matched to admitted work (spec §4.3: the caller must
call `notify_requests_finished` exactly once per admitted unit of work, with
its ticket): each call finishes one outstanding admitted request, identified
by its index in the ghost `outstanding` list, from which it is removed.
`enqueue` reduces the ticket components mod `2^32` (they are `uint32_t` at
the call boundary), and `dispatch` carries the positive decay factor
abstracting the clock (spec §4.3 step 1). -/
inductive fair_queue.Reachable : fair_queue → Prop
  | init (cfg : fq_config) : fair_queue.Reachable (fair_queue.start cfg)
  | register (s : fair_queue) (shares : Nat) (h : fair_queue.Reachable s) :
      fair_queue.Reachable (s.register_priority_class shares).1
  | update (s : fair_queue) (cid shares : Nat) (h : fair_queue.Reachable s) :
      fair_queue.Reachable (s.update_shares_at cid shares)
  | unregister (s : fair_queue) (cid : Nat) (s' : fair_queue) (h : fair_queue.Reachable s)
      (hu : s.unregister_priority_class cid = some s') : fair_queue.Reachable s'
  | enqueue (s : fair_queue) (cid w sz fid : Nat) (h : fair_queue.Reachable s) :
      fair_queue.Reachable (s.queue cid ⟨w % U32, sz % U32⟩ fid)
  | dispatch (s : fair_queue) (f : ℚ) (hf : 0 < f) (h : fair_queue.Reachable s) :
      fair_queue.Reachable (s.dispatch_requests f)
  | notify (s : fair_queue) (i : Nat) (d : fair_queue_ticket) (h : fair_queue.Reachable s)
      (hd : s.outstanding[i]? = some d) :
      fair_queue.Reachable
        { s.notify_requests_finished d 1 with outstanding := s.outstanding.eraseIdx i }

/-! ### Concrete states used to exercise the theorems on closed inputs -/

/-- Small test configuration: at most 10 concurrent requests, 1000 bytes. -/
def cfgW : fq_config := { max_req_count := 10, max_bytes_count := 1000 }

/-- State after registering one class (shares 5) on a fresh queue. -/
def sReg : fair_queue := ((fair_queue.start cfgW).register_priority_class 5).1

/-- State after queueing one request (ticket (2,30), fid 7) to that class. -/
def sEnq : fair_queue := sReg.queue 0 ⟨2 % U32, 30 % U32⟩ 7

/-- State after one dispatch pass (decay factor 1). -/
def sDis : fair_queue := sEnq.dispatch_requests 1

/-- State after the admitted request is notified finished. -/
def sFin : fair_queue :=
  { sDis.notify_requests_finished ⟨2 % U32, 30 % U32⟩ 1 with
      outstanding := sDis.outstanding.eraseIdx 0 }

/-- Hand-built state with two linked classes of different accumulated virtual
service, used to exercise the dispatch-selection theorem. -/
def sC3 : fair_queue :=
  { config := { max_req_count := 10, max_bytes_count := 100 },
    maximum_capacity := ⟨10, 100⟩,
    current_capacity := ⟨10, 100⟩,
    resources_executing := ⟨0, 0⟩,
    resources_queued := ⟨2, 2⟩,
    requests_executing := 0,
    requests_queued := 2,
    handles := [0, 1],
    all_classes :=
      [(0, { shares := 1, accumulated := 5, queue := [⟨100, ⟨1, 1⟩⟩], queued := true }),
       (1, { shares := 1, accumulated := 3, queue := [⟨200, ⟨1, 1⟩⟩], queued := true })],
    next_id := 2,
    outstanding := [],
    served := [],
    submitted := [(0, 100), (1, 200)] }

/-- The class that `sC3`'s dispatch structure surfaces first (least accumulated). -/
def pcC3 : priority_class :=
  { shares := 1, accumulated := 3, queue := [⟨200, ⟨1, 1⟩⟩], queued := true }

/-- The class record held in `sEnq`'s registry. -/
def pcEnq : priority_class :=
  { shares := 5, accumulated := 0, queue := [⟨7, ⟨2 % U32, 30 % U32⟩⟩], queued := true }

/-- State after queueing a second request (ticket (1,1), fid 9) on `sReg`. -/
def ssq : fair_queue := sReg.queue 0 ⟨1, 1⟩ 9

/-- The class record produced by that `queue` call. -/
def pcQ5 : priority_class :=
  { shares := 5, accumulated := 0, queue := [⟨9, ⟨1, 1⟩⟩], queued := true }

/-! ### Arithmetic lemmas for `uint32_t` wrap-around -/

theorem U32_pos : 0 < U32 := by decide

theorem uadd_mod_left (a b : Nat) : uadd (a % U32) b = (a + b) % U32 := by
  unfold uadd U32
  omega

theorem uadd_exact (a b : Nat) (h : a + b < U32) : uadd a b = a + b := by
  unfold uadd U32 at *
  omega

theorem usub_mod_left (a b : Nat) (h : b ≤ a) : usub (a % U32) b = (a - b) % U32 := by
  unfold usub U32 at *
  omega

theorem usub_exact (a b : Nat) (h : b ≤ a) (h2 : a < U32) : usub a b = a - b := by
  unfold usub U32 at *
  omega

/-! ### Registry (association list) lemmas -/

theorem lookup_update_self (cs : List (Nat × priority_class)) (cid : Nat)
    (pc pc' : priority_class) (h : lookupClass cs cid = some pc) :
    lookupClass (updateClass cs cid pc') cid = some pc' := by
  induction cs with
  | nil => simp [lookupClass] at h
  | cons kp rest ih =>
    by_cases hk : kp.1 = cid
    · simp [updateClass, lookupClass, hk]
    · simp only [lookupClass, if_neg hk] at h
      simp only [updateClass, if_neg hk, lookupClass, if_neg hk]
      exact ih h

theorem lookup_update_ne (cs : List (Nat × priority_class)) (cid cid' : Nat)
    (pc' : priority_class) (h : cid' ≠ cid) :
    lookupClass (updateClass cs cid pc') cid' = lookupClass cs cid' := by
  induction cs with
  | nil => rfl
  | cons kp rest ih =>
    by_cases hk : kp.1 = cid
    · have h1 : ¬ (kp.1 = cid') := by omega
      simp only [updateClass, if_pos hk, lookupClass, if_neg h1]
    · by_cases hk' : kp.1 = cid'
      · simp only [updateClass, if_neg hk, lookupClass, if_pos hk']
      · simp only [updateClass, if_neg hk, lookupClass, if_neg hk']
        exact ih

theorem lookup_update_none (cs : List (Nat × priority_class)) (cid : Nat)
    (pc' : priority_class) (h : lookupClass cs cid = none) :
    updateClass cs cid pc' = cs := by
  induction cs with
  | nil => rfl
  | cons kp rest ih =>
    by_cases hk : kp.1 = cid
    · simp [lookupClass, hk] at h
    · simp only [lookupClass, if_neg hk] at h
      simp only [updateClass, if_neg hk, ih h]

theorem lookup_remove_self (cs : List (Nat × priority_class)) (cid : Nat) :
    lookupClass (removeClass cs cid) cid = none := by
  induction cs with
  | nil => rfl
  | cons kp rest ih =>
    by_cases hk : kp.1 = cid
    · simpa only [removeClass, if_pos hk] using ih
    · simpa only [removeClass, if_neg hk, lookupClass, if_neg hk] using ih

theorem lookup_remove_ne (cs : List (Nat × priority_class)) (cid cid' : Nat) (h : cid' ≠ cid) :
    lookupClass (removeClass cs cid) cid' = lookupClass cs cid' := by
  induction cs with
  | nil => rfl
  | cons kp rest ih =>
    by_cases hk : kp.1 = cid
    · have h1 : ¬ (kp.1 = cid') := by omega
      simp only [removeClass, if_pos hk, lookupClass, if_neg h1]
      exact ih
    · by_cases hk' : kp.1 = cid'
      · simp only [removeClass, if_neg hk, lookupClass, if_pos hk']
      · simp only [removeClass, if_neg hk, lookupClass, if_neg hk']
        exact ih

theorem lookup_mem (cs : List (Nat × priority_class)) (cid : Nat) (pc : priority_class)
    (h : lookupClass cs cid = some pc) : (cid, pc) ∈ cs := by
  induction cs with
  | nil => simp [lookupClass] at h
  | cons kp rest ih =>
    by_cases hk : kp.1 = cid
    · simp only [lookupClass, if_pos hk, Option.some.injEq] at h
      subst h
      rw [← hk]
      exact List.mem_cons_self kp rest
    · simp only [lookupClass, if_neg hk] at h
      exact List.mem_cons_of_mem _ (ih h)

theorem lookup_none_of_keys_lt (cs : List (Nat × priority_class)) (n : Nat)
    (h : ∀ kp ∈ cs, kp.1 < n) : lookupClass cs n = none := by
  induction cs with
  | nil => rfl
  | cons kp rest ih =>
    have h1 : kp.1 < n := h kp (List.mem_cons_self kp rest)
    have h2 : ¬ (kp.1 = n) := by omega
    simp only [lookupClass, if_neg h2]
    exact ih (fun x hx => h x (List.mem_cons_of_mem _ hx))

theorem keys_update (cs : List (Nat × priority_class)) (cid : Nat) (pc' : priority_class) :
    (updateClass cs cid pc').map Prod.fst = cs.map Prod.fst := by
  induction cs with
  | nil => rfl
  | cons kp rest ih =>
    by_cases hk : kp.1 = cid
    · simp [updateClass, hk]
    · simp only [updateClass, if_neg hk, List.map_cons, ih]

theorem keys_map_decay (cs : List (Nat × priority_class)) (f : ℚ) :
    (cs.map (fun kp => (kp.1, kp.2.decay f))).map Prod.fst = cs.map Prod.fst := by
  induction cs with
  | nil => rfl
  | cons kp rest ih =>
    simp only [List.map_cons, ih]

theorem lookup_map_decay (cs : List (Nat × priority_class)) (cid : Nat) (f : ℚ) :
    lookupClass (cs.map (fun kp => (kp.1, kp.2.decay f))) cid =
      (lookupClass cs cid).map (fun pc => pc.decay f) := by
  induction cs with
  | nil => rfl
  | cons kp rest ih =>
    by_cases hk : kp.1 = cid
    · simp [lookupClass, hk]
    · simp only [List.map_cons, lookupClass, if_neg hk]
      exact ih

/-! ### Accounting-sum lemmas -/

theorem classSum_update (f : priority_class → Nat) (cs : List (Nat × priority_class))
    (cid : Nat) (pc pc' : priority_class) (h : lookupClass cs cid = some pc) :
    classSum f (updateClass cs cid pc') + f pc = classSum f cs + f pc' := by
  induction cs with
  | nil => simp [lookupClass] at h
  | cons kp rest ih =>
    by_cases hk : kp.1 = cid
    · simp only [lookupClass, if_pos hk, Option.some.injEq] at h
      subst h
      simp only [updateClass, if_pos hk, classSum, List.map_cons, List.sum_cons]
      omega
    · simp only [lookupClass, if_neg hk] at h
      simp only [updateClass, if_neg hk, classSum, List.map_cons, List.sum_cons]
      have := ih h
      simp only [classSum] at this
      omega

theorem removeClass_of_not_mem (cs : List (Nat × priority_class)) (cid : Nat)
    (h : cid ∉ cs.map Prod.fst) : removeClass cs cid = cs := by
  induction cs with
  | nil => rfl
  | cons kq rr ih =>
    simp only [List.map_cons, List.mem_cons, not_or] at h
    have h1 : ¬ (kq.1 = cid) := fun he => h.1 he.symm
    simp only [removeClass, if_neg h1, ih h.2]

theorem classSum_remove (f : priority_class → Nat) (cs : List (Nat × priority_class))
    (cid : Nat) (pc : priority_class) (hnd : (cs.map Prod.fst).Nodup)
    (h : lookupClass cs cid = some pc) :
    classSum f (removeClass cs cid) + f pc = classSum f cs := by
  induction cs with
  | nil => simp [lookupClass] at h
  | cons kp rest ih =>
    simp only [List.map_cons, List.nodup_cons] at hnd
    by_cases hk : kp.1 = cid
    · simp only [lookupClass, if_pos hk, Option.some.injEq] at h
      subst h
      have hrm : removeClass rest cid = rest := removeClass_of_not_mem rest cid (hk ▸ hnd.1)
      simp only [removeClass, if_pos hk, hrm, classSum, List.map_cons, List.sum_cons]
      omega
    · simp only [lookupClass, if_neg hk] at h
      simp only [removeClass, if_neg hk, classSum, List.map_cons, List.sum_cons]
      have := ih hnd.2 h
      simp only [classSum] at this
      omega

theorem classSum_le (f : priority_class → Nat) (cs : List (Nat × priority_class))
    (cid : Nat) (pc : priority_class) (h : lookupClass cs cid = some pc) :
    f pc ≤ classSum f cs := by
  induction cs with
  | nil => simp [lookupClass] at h
  | cons kp rest ih =>
    by_cases hk : kp.1 = cid
    · simp only [lookupClass, if_pos hk, Option.some.injEq] at h
      subst h
      simp only [classSum, List.map_cons, List.sum_cons]
      omega
    · simp only [lookupClass, if_neg hk] at h
      have := ih h
      simp only [classSum, List.map_cons, List.sum_cons] at this ⊢
      omega

theorem classSum_zero (f : priority_class → Nat) (cs : List (Nat × priority_class))
    (h : ∀ kp ∈ cs, f kp.2 = 0) : classSum f cs = 0 := by
  induction cs with
  | nil => rfl
  | cons kp rest ih =>
    simp only [classSum, List.map_cons, List.sum_cons]
    rw [h kp (List.mem_cons_self kp rest)]
    have := ih (fun x hx => h x (List.mem_cons_of_mem _ hx))
    simp only [classSum] at this
    omega

theorem classSum_map_decay (f : priority_class → Nat) (cs : List (Nat × priority_class))
    (q : ℚ) (hf : ∀ pc : priority_class, f (pc.decay q) = f pc) :
    classSum f (cs.map (fun kp => (kp.1, kp.2.decay q))) = classSum f cs := by
  induction cs with
  | nil => rfl
  | cons kp rest ih =>
    simp only [classSum, List.map_cons, List.sum_cons] at ih ⊢
    rw [hf kp.2, ih]

theorem ticketWeightSum_append (l : List fair_queue_ticket) (t : fair_queue_ticket) :
    ticketWeightSum (l ++ [t]) = ticketWeightSum l + t.weight := by
  simp [ticketWeightSum]

theorem ticketSizeSum_append (l : List fair_queue_ticket) (t : fair_queue_ticket) :
    ticketSizeSum (l ++ [t]) = ticketSizeSum l + t.size := by
  simp [ticketSizeSum]

theorem reqWeightSum_append (l : List priority_class.request) (r : priority_class.request) :
    reqWeightSum (l ++ [r]) = reqWeightSum l + r.desc.weight := by
  simp [reqWeightSum]

theorem reqSizeSum_append (l : List priority_class.request) (r : priority_class.request) :
    reqSizeSum (l ++ [r]) = reqSizeSum l + r.desc.size := by
  simp [reqSizeSum]

theorem sum_eraseIdx (f : fair_queue_ticket → Nat) (l : List fair_queue_ticket) (i : Nat)
    (d : fair_queue_ticket) (h : l[i]? = some d) :
    ((l.eraseIdx i).map f).sum + f d = (l.map f).sum := by
  induction l generalizing i with
  | nil => simp at h
  | cons x rest ih =>
    cases i with
    | zero =>
      simp only [List.getElem?_cons_zero, Option.some.injEq] at h
      subst h
      simp [List.eraseIdx]
      omega
    | succ j =>
      simp only [List.getElem?_cons_succ] at h
      simp only [List.eraseIdx, List.map_cons, List.sum_cons]
      have := ih j h
      omega

theorem length_eraseIdx_of_getElem (l : List fair_queue_ticket) (i : Nat)
    (d : fair_queue_ticket) (h : l[i]? = some d) :
    (l.eraseIdx i).length + 1 = l.length := by
  induction l generalizing i with
  | nil => simp at h
  | cons x rest ih =>
    cases i with
    | zero => simp [List.eraseIdx]
    | succ j =>
      simp only [List.getElem?_cons_succ] at h
      simp only [List.eraseIdx, List.length_cons]
      have := ih j h
      omega

theorem getElem_le_sum (f : fair_queue_ticket → Nat) (l : List fair_queue_ticket) (i : Nat)
    (d : fair_queue_ticket) (h : l[i]? = some d) : f d ≤ (l.map f).sum := by
  induction l generalizing i with
  | nil => simp at h
  | cons x rest ih =>
    cases i with
    | zero =>
      simp only [List.getElem?_cons_zero, Option.some.injEq] at h
      subst h
      simp only [List.map_cons, List.sum_cons]
      omega
    | succ j =>
      simp only [List.getElem?_cons_succ] at h
      have := ih j h
      simp only [List.map_cons, List.sum_cons]
      omega

/-! ### Selection lemmas for the dispatch structure -/

theorem pickMin_mem (g : Nat → ℚ) (best : Nat) (l : List Nat) :
    pickMin g best l = best ∨ pickMin g best l ∈ l := by
  induction l generalizing best with
  | nil => left; rfl
  | cons c rest ih =>
    simp only [pickMin]
    rcases ih (if g c < g best then c else best) with h | h
    · by_cases hc : g c < g best
      · right
        rw [h, if_pos hc]
        exact List.mem_cons_self c rest
      · left
        rw [h, if_neg hc]
    · right
      exact List.mem_cons_of_mem _ h

theorem pickMin_le (g : Nat → ℚ) (best : Nat) (l : List Nat) :
    g (pickMin g best l) ≤ g best ∧ ∀ c ∈ l, g (pickMin g best l) ≤ g c := by
  induction l generalizing best with
  | nil => exact ⟨le_refl _, fun c hc => absurd hc (List.not_mem_nil c)⟩
  | cons c rest ih =>
    simp only [pickMin]
    obtain ⟨ih1, ih2⟩ := ih (if g c < g best then c else best)
    constructor
    · by_cases hc : g c < g best
      · calc g (pickMin g (if g c < g best then c else best) rest)
            ≤ g (if g c < g best then c else best) := ih1
          _ ≤ g best := by rw [if_pos hc]; exact le_of_lt hc
      · calc g (pickMin g (if g c < g best then c else best) rest)
            ≤ g (if g c < g best then c else best) := ih1
          _ = g best := by rw [if_neg hc]
    · intro x hx
      rcases List.mem_cons.mp hx with hx | hx
      · subst hx
        by_cases hc : g x < g best
        · calc g (pickMin g (if g x < g best then x else best) rest)
              ≤ g (if g x < g best then x else best) := ih1
            _ = g x := by rw [if_pos hc]
        · calc g (pickMin g (if g x < g best then x else best) rest)
              ≤ g (if g x < g best then x else best) := ih1
            _ = g best := by rw [if_neg hc]
            _ ≤ g x := le_of_not_lt hc
      · exact ih2 x hx

theorem top_mem (s : fair_queue) (cid : Nat) (h : s.top_priority_class = some cid) :
    cid ∈ s.handles := by
  unfold fair_queue.top_priority_class at h
  cases hh : s.handles with
  | nil => rw [hh] at h; simp at h
  | cons x rest =>
    rw [hh] at h
    simp only [Option.some.injEq] at h
    subst h
    rcases pickMin_mem s.accOf x rest with h | h
    · rw [h]; exact List.mem_cons_self x rest
    · exact List.mem_cons_of_mem _ h

theorem top_min (s : fair_queue) (cid : Nat) (h : s.top_priority_class = some cid) :
    ∀ c ∈ s.handles, s.accOf cid ≤ s.accOf c := by
  unfold fair_queue.top_priority_class at h
  cases hh : s.handles with
  | nil => rw [hh] at h; simp at h
  | cons x rest =>
    rw [hh] at h
    simp only [Option.some.injEq] at h
    subst h
    intro c hc
    rcases List.mem_cons.mp hc with hc | hc
    · subst hc
      exact (pickMin_le s.accOf c rest).1
    · exact (pickMin_le s.accOf x rest).2 c hc

/-! ### Ghost-log lemmas -/

theorem log_fids_append (log : List (Nat × Nat)) (cid fid c : Nat) :
    (((log ++ [(cid, fid)]).filter (fun p => p.1 == c)).map (fun p => p.2)) =
      ((log.filter (fun p => p.1 == c)).map (fun p => p.2)) ++
        (if cid = c then [fid] else []) := by
  rw [List.filter_append, List.map_append]
  by_cases h : cid = c
  · simp [h]
  · simp [h]

theorem classSum_cons (f : priority_class → Nat) (kp : Nat × priority_class)
    (cs : List (Nat × priority_class)) :
    classSum f (kp :: cs) = f kp.2 + classSum f cs := by
  simp [classSum]

/-! ### The master reachability invariant -/

/-- Invariant satisfied by every reachable fair-queue state: the maximum
capacity ticket is the one derived from the configuration; the executing
counters are exactly the totals of the outstanding (admitted, unfinished)
requests and stay within the configured capacity; the queued counters are the
totals (mod `2^32`) of the pending requests over all classes; each class's
served-fid log followed by its pending fids equals its submitted-fid log (the
per-class FIFO discipline); the dispatch structure holds no duplicates,
exactly the classes whose `_queued` flag is set, and only classes with
pending work; registry keys are unique and below the allocator; and every
registered class has at least one share. -/
structure fair_queue.Inv (s : fair_queue) : Prop where
  cap_eq : s.maximum_capacity = ⟨s.config.max_req_count, s.config.max_bytes_count⟩
  cap_w_lt : s.maximum_capacity.weight < U32
  cap_s_lt : s.maximum_capacity.size < U32
  exec_w : s.resources_executing.weight = ticketWeightSum s.outstanding
  exec_s : s.resources_executing.size = ticketSizeSum s.outstanding
  exec_w_le : ticketWeightSum s.outstanding ≤ s.maximum_capacity.weight
  exec_s_le : ticketSizeSum s.outstanding ≤ s.maximum_capacity.size
  exec_n : s.requests_executing = s.outstanding.length
  exec_n_le : s.outstanding.length ≤ s.config.max_req_count
  queued_w : s.resources_queued.weight = pendW s.all_classes % U32
  queued_s : s.resources_queued.size = pendS s.all_classes % U32
  queued_n : s.requests_queued = pendCount s.all_classes % U32
  fifo : ∀ cid, servedFids s cid ++ pendingFids s cid = submittedFids s cid
  handles_nodup : s.handles.Nodup
  queued_iff : ∀ cid pc, lookupClass s.all_classes cid = some pc →
    (pc.queued = true ↔ cid ∈ s.handles)
  handles_reg : ∀ cid ∈ s.handles, ∃ pc, lookupClass s.all_classes cid = some pc
  handles_pending : ∀ cid ∈ s.handles, ∀ pc, lookupClass s.all_classes cid = some pc →
    pc.queue ≠ []
  keys_nodup : (s.all_classes.map Prod.fst).Nodup
  keys_lt : ∀ kp ∈ s.all_classes, kp.1 < s.next_id
  shares_pos : ∀ cid pc, lookupClass s.all_classes cid = some pc → 1 ≤ pc.shares

theorem inv_start (cfg : fq_config) : (fair_queue.start cfg).Inv where
  cap_eq := rfl
  cap_w_lt := Nat.mod_lt _ U32_pos
  cap_s_lt := Nat.mod_lt _ U32_pos
  exec_w := rfl
  exec_s := rfl
  exec_w_le := by simp [fair_queue.start, ticketWeightSum]
  exec_s_le := by simp [fair_queue.start, ticketSizeSum]
  exec_n := rfl
  exec_n_le := by simp [fair_queue.start]
  queued_w := by simp [fair_queue.start, pendW, classSum]
  queued_s := by simp [fair_queue.start, pendS, classSum]
  queued_n := by simp [fair_queue.start, pendCount, classSum]
  fifo := fun _ => rfl
  handles_nodup := List.nodup_nil
  queued_iff := by intro cid pc h; simp [fair_queue.start, lookupClass] at h
  handles_reg := by intro cid hc; simp [fair_queue.start] at hc
  handles_pending := by intro cid hc; simp [fair_queue.start] at hc
  keys_nodup := List.nodup_nil
  keys_lt := by intro kp hk; simp [fair_queue.start] at hk
  shares_pos := by intro cid pc h; simp [fair_queue.start, lookupClass] at h

theorem inv_register (s : fair_queue) (sh : Nat) (hs : s.Inv) :
    (s.register_priority_class sh).1.Inv := by
  have hfresh : lookupClass s.all_classes s.next_id = none :=
    lookup_none_of_keys_lt _ _ hs.keys_lt
  have hfresh2 : s.next_id ∉ s.handles := by
    intro hmem
    obtain ⟨pc, hpc⟩ := hs.handles_reg s.next_id hmem
    rw [hfresh] at hpc
    exact Option.noConfusion hpc
  have hne : ∀ cid (pc : priority_class), lookupClass s.all_classes cid = some pc →
      ¬ (s.next_id = cid) := by
    intro cid pc hpc he
    have := hs.keys_lt _ (lookup_mem _ _ _ hpc)
    omega
  refine
    { cap_eq := hs.cap_eq
      cap_w_lt := hs.cap_w_lt
      cap_s_lt := hs.cap_s_lt
      exec_w := hs.exec_w
      exec_s := hs.exec_s
      exec_w_le := hs.exec_w_le
      exec_s_le := hs.exec_s_le
      exec_n := hs.exec_n
      exec_n_le := hs.exec_n_le
      queued_w := ?_
      queued_s := ?_
      queued_n := ?_
      fifo := ?_
      handles_nodup := hs.handles_nodup
      queued_iff := ?_
      handles_reg := ?_
      handles_pending := ?_
      keys_nodup := ?_
      keys_lt := ?_
      shares_pos := ?_ }
  · simpa [fair_queue.register_priority_class, pendW, classSum_cons, priority_class.make,
      reqWeightSum] using hs.queued_w
  · simpa [fair_queue.register_priority_class, pendS, classSum_cons, priority_class.make,
      reqSizeSum] using hs.queued_s
  · simpa [fair_queue.register_priority_class, pendCount, classSum_cons,
      priority_class.make] using hs.queued_n
  · intro cid
    have hold := hs.fifo cid
    by_cases hc : s.next_id = cid
    · subst hc
      simp only [servedFids, submittedFids, pendingFids, fair_queue.register_priority_class,
        lookupClass, if_pos rfl, priority_class.make, List.map_nil] at *
      rw [hfresh] at hold
      simpa using hold
    · simp only [servedFids, submittedFids, pendingFids, fair_queue.register_priority_class,
        lookupClass, if_neg hc] at *
      exact hold
  · intro cid pc h
    simp only [fair_queue.register_priority_class, lookupClass] at h
    by_cases hc : s.next_id = cid
    · rw [if_pos hc] at h
      simp only [Option.some.injEq] at h
      subst h
      simp only [priority_class.make, fair_queue.register_priority_class]
      constructor
      · intro hf; exact absurd hf (by decide)
      · intro hmem; exact absurd (hc ▸ hmem) hfresh2
    · rw [if_neg hc] at h
      exact hs.queued_iff cid pc h
  · intro cid hc
    obtain ⟨pc, hpc⟩ := hs.handles_reg cid hc
    refine ⟨pc, ?_⟩
    simp only [fair_queue.register_priority_class, lookupClass, if_neg (hne cid pc hpc)]
    exact hpc
  · intro cid hc pc hpc
    obtain ⟨pc0, hpc0⟩ := hs.handles_reg cid hc
    simp only [fair_queue.register_priority_class, lookupClass,
      if_neg (hne cid pc0 hpc0)] at hpc
    exact hs.handles_pending cid hc pc hpc
  · simp only [fair_queue.register_priority_class, List.map_cons, List.nodup_cons]
    refine ⟨?_, hs.keys_nodup⟩
    intro hmem
    simp only [List.mem_map] at hmem
    obtain ⟨kp, hkp, he⟩ := hmem
    have := hs.keys_lt kp hkp
    omega
  · intro kp hkp
    simp only [fair_queue.register_priority_class, List.mem_cons] at hkp ⊢
    rcases hkp with h | h
    · subst h; omega
    · have := hs.keys_lt kp h
      omega
  · intro cid pc h
    simp only [fair_queue.register_priority_class, lookupClass] at h
    by_cases hc : s.next_id = cid
    · rw [if_pos hc] at h
      simp only [Option.some.injEq] at h
      subst h
      simp [priority_class.make]
    · rw [if_neg hc] at h
      exact hs.shares_pos cid pc h

theorem classSum_update_congr (f : priority_class → Nat) (cs : List (Nat × priority_class))
    (cid : Nat) (pc pc' : priority_class) (h : lookupClass cs cid = some pc)
    (hf : f pc' = f pc) : classSum f (updateClass cs cid pc') = classSum f cs := by
  have := classSum_update f cs cid pc pc' h
  omega

theorem inv_update_shares (s : fair_queue) (cid sh : Nat) (hs : s.Inv) :
    (s.update_shares_at cid sh).Inv := by
  cases hl : lookupClass s.all_classes cid with
  | none =>
    simpa [fair_queue.update_shares_at, hl] using hs
  | some pc =>
    refine
      { cap_eq := by simpa [fair_queue.update_shares_at, hl] using hs.cap_eq
        cap_w_lt := by simpa [fair_queue.update_shares_at, hl] using hs.cap_w_lt
        cap_s_lt := by simpa [fair_queue.update_shares_at, hl] using hs.cap_s_lt
        exec_w := by simpa [fair_queue.update_shares_at, hl] using hs.exec_w
        exec_s := by simpa [fair_queue.update_shares_at, hl] using hs.exec_s
        exec_w_le := by simpa [fair_queue.update_shares_at, hl] using hs.exec_w_le
        exec_s_le := by simpa [fair_queue.update_shares_at, hl] using hs.exec_s_le
        exec_n := by simpa [fair_queue.update_shares_at, hl] using hs.exec_n
        exec_n_le := by simpa [fair_queue.update_shares_at, hl] using hs.exec_n_le
        queued_w := ?_
        queued_s := ?_
        queued_n := ?_
        fifo := ?_
        handles_nodup := by simpa [fair_queue.update_shares_at, hl] using hs.handles_nodup
        queued_iff := ?_
        handles_reg := ?_
        handles_pending := ?_
        keys_nodup := by
          simpa [fair_queue.update_shares_at, hl, keys_update] using hs.keys_nodup
        keys_lt := ?_
        shares_pos := ?_ }
    · have h3 := classSum_update_congr (fun pc => reqWeightSum pc.queue) s.all_classes cid pc
        (pc.update_shares sh) hl rfl
      simp only [fair_queue.update_shares_at, hl, pendW]
      rw [h3]
      exact hs.queued_w
    · have h3 := classSum_update_congr (fun pc => reqSizeSum pc.queue) s.all_classes cid pc
        (pc.update_shares sh) hl rfl
      simp only [fair_queue.update_shares_at, hl, pendS]
      rw [h3]
      exact hs.queued_s
    · have h3 := classSum_update_congr (fun pc => pc.queue.length) s.all_classes cid pc
        (pc.update_shares sh) hl rfl
      simp only [fair_queue.update_shares_at, hl, pendCount]
      rw [h3]
      exact hs.queued_n
    · intro c
      have hold := hs.fifo c
      simp only [servedFids, submittedFids, pendingFids] at hold ⊢
      by_cases hc : c = cid
      · subst hc
        rw [hl] at hold
        simp only [fair_queue.update_shares_at, hl]
        rw [lookup_update_self s.all_classes c pc (pc.update_shares sh) hl]
        simpa [priority_class.update_shares] using hold
      · simp only [fair_queue.update_shares_at, hl,
          lookup_update_ne s.all_classes cid c _ hc]
        exact hold
    · intro c pc' h
      simp only [fair_queue.update_shares_at, hl] at h ⊢
      by_cases hc : c = cid
      · subst hc
        rw [lookup_update_self s.all_classes c pc _ hl] at h
        simp only [Option.some.injEq] at h
        subst h
        simpa [priority_class.update_shares] using hs.queued_iff c pc hl
      · rw [lookup_update_ne s.all_classes cid c _ hc] at h
        exact hs.queued_iff c pc' h
    · intro c hc
      simp only [fair_queue.update_shares_at, hl] at hc ⊢
      by_cases hcc : c = cid
      · subst hcc
        exact ⟨pc.update_shares sh, lookup_update_self s.all_classes c pc _ hl⟩
      · obtain ⟨pc', hpc'⟩ := hs.handles_reg c hc
        exact ⟨pc', by rw [lookup_update_ne s.all_classes cid c _ hcc]; exact hpc'⟩
    · intro c hc pc' h
      simp only [fair_queue.update_shares_at, hl] at hc h ⊢
      by_cases hcc : c = cid
      · subst hcc
        rw [lookup_update_self s.all_classes c pc _ hl] at h
        simp only [Option.some.injEq] at h
        subst h
        simpa [priority_class.update_shares] using hs.handles_pending c hc pc hl
      · rw [lookup_update_ne s.all_classes cid c _ hcc] at h
        exact hs.handles_pending c hc pc' h
    · intro kp hkp
      simp only [fair_queue.update_shares_at, hl] at hkp ⊢
      have : kp.1 ∈ (updateClass s.all_classes cid (pc.update_shares sh)).map Prod.fst :=
        List.mem_map_of_mem Prod.fst hkp
      rw [keys_update] at this
      simp only [List.mem_map] at this
      obtain ⟨kq, hkq, he⟩ := this
      have := hs.keys_lt kq hkq
      omega
    · intro c pc' h
      simp only [fair_queue.update_shares_at, hl] at h
      by_cases hc : c = cid
      · subst hc
        rw [lookup_update_self s.all_classes c pc _ hl] at h
        simp only [Option.some.injEq] at h
        subst h
        simp [priority_class.update_shares]
      · rw [lookup_update_ne s.all_classes cid c _ hc] at h
        exact hs.shares_pos c pc' h

theorem lookup_none_not_mem (cs : List (Nat × priority_class)) (cid : Nat)
    (h : lookupClass cs cid = none) : cid ∉ cs.map Prod.fst := by
  induction cs with
  | nil => simp
  | cons kp rest ih =>
    intro hmem
    by_cases hk : kp.1 = cid
    · simp [lookupClass, hk] at h
    · simp only [lookupClass, if_neg hk] at h
      simp only [List.map_cons, List.mem_cons] at hmem
      rcases hmem with hm | hm
      · exact hk hm.symm
      · exact ih h hm

theorem removeClass_keys_sublist (cs : List (Nat × priority_class)) (cid : Nat) :
    ((removeClass cs cid).map Prod.fst).Sublist (cs.map Prod.fst) := by
  induction cs with
  | nil => exact List.Sublist.refl _
  | cons kp rest ih =>
    by_cases hk : kp.1 = cid
    · simp only [removeClass, if_pos hk, List.map_cons]
      exact ih.cons kp.1
    · simp only [removeClass, if_neg hk, List.map_cons]
      exact ih.cons₂ kp.1

theorem removeClass_mem (cs : List (Nat × priority_class)) (cid : Nat)
    (kp : Nat × priority_class) (h : kp ∈ removeClass cs cid) : kp ∈ cs := by
  induction cs with
  | nil => exact absurd h (List.not_mem_nil kp)
  | cons kq rest ih =>
    by_cases hk : kq.1 = cid
    · simp only [removeClass, if_pos hk] at h
      exact List.mem_cons_of_mem _ (ih h)
    · simp only [removeClass, if_neg hk, List.mem_cons] at h
      rcases h with h | h
      · exact h ▸ List.mem_cons_self kq rest
      · exact List.mem_cons_of_mem _ (ih h)

theorem inv_unregister (s : fair_queue) (cid : Nat) (s' : fair_queue) (hs : s.Inv)
    (hu : s.unregister_priority_class cid = some s') : s'.Inv := by
  cases hl : lookupClass s.all_classes cid with
  | none =>
    have hrm : removeClass s.all_classes cid = s.all_classes :=
      removeClass_of_not_mem _ _ (lookup_none_not_mem _ _ hl)
    simp only [fair_queue.unregister_priority_class, hl, hrm, Option.some.injEq] at hu
    subst hu
    exact hs
  | some pc =>
    by_cases hq : pc.queue = []
    · simp only [fair_queue.unregister_priority_class, hl, if_pos hq,
        Option.some.injEq] at hu
      subst hu
      have hnotin : cid ∉ s.handles := by
        intro hmem
        exact hs.handles_pending cid hmem pc hl hq
      have hrw : ∀ (f : priority_class → Nat), f pc = 0 →
          classSum f (removeClass s.all_classes cid) = classSum f s.all_classes := by
        intro f hf
        have := classSum_remove f s.all_classes cid pc hs.keys_nodup hl
        omega
      refine
        { cap_eq := hs.cap_eq
          cap_w_lt := hs.cap_w_lt
          cap_s_lt := hs.cap_s_lt
          exec_w := hs.exec_w
          exec_s := hs.exec_s
          exec_w_le := hs.exec_w_le
          exec_s_le := hs.exec_s_le
          exec_n := hs.exec_n
          exec_n_le := hs.exec_n_le
          queued_w := ?_
          queued_s := ?_
          queued_n := ?_
          fifo := ?_
          handles_nodup := hs.handles_nodup
          queued_iff := ?_
          handles_reg := ?_
          handles_pending := ?_
          keys_nodup := (removeClass_keys_sublist s.all_classes cid).nodup hs.keys_nodup
          keys_lt := fun kp hkp => hs.keys_lt kp (removeClass_mem _ _ _ hkp)
          shares_pos := ?_ }
      · rw [show pendW (removeClass s.all_classes cid) = pendW s.all_classes from
          hrw _ (by simp [hq, reqWeightSum])]
        exact hs.queued_w
      · rw [show pendS (removeClass s.all_classes cid) = pendS s.all_classes from
          hrw _ (by simp [hq, reqSizeSum])]
        exact hs.queued_s
      · rw [show pendCount (removeClass s.all_classes cid) = pendCount s.all_classes from
          hrw _ (by simp [hq])]
        exact hs.queued_n
      · intro c
        have hold := hs.fifo c
        simp only [servedFids, submittedFids, pendingFids] at hold ⊢
        by_cases hc : c = cid
        · subst hc
          rw [hl] at hold
          rw [lookup_remove_self]
          simpa [hq] using hold
        · rw [lookup_remove_ne s.all_classes cid c hc]
          exact hold
      · intro c pc' h
        by_cases hc : c = cid
        · subst hc
          rw [lookup_remove_self] at h
          exact Option.noConfusion h
        · rw [lookup_remove_ne s.all_classes cid c hc] at h
          exact hs.queued_iff c pc' h
      · intro c hc
        have hcc : c ≠ cid := fun he => hnotin (he ▸ hc)
        obtain ⟨pc', hpc'⟩ := hs.handles_reg c hc
        exact ⟨pc', by rw [lookup_remove_ne s.all_classes cid c hcc]; exact hpc'⟩
      · intro c hc pc' h
        have hcc : c ≠ cid := fun he => hnotin (he ▸ hc)
        rw [lookup_remove_ne s.all_classes cid c hcc] at h
        exact hs.handles_pending c hc pc' h
      · intro c pc' h
        by_cases hc : c = cid
        · subst hc
          rw [lookup_remove_self] at h
          exact Option.noConfusion h
        · rw [lookup_remove_ne s.all_classes cid c hc] at h
          exact hs.shares_pos c pc' h
    · simp [fair_queue.unregister_priority_class, hl, if_neg hq] at hu

theorem classSum_update_add (f : priority_class → Nat) (cs : List (Nat × priority_class))
    (cid : Nat) (pc pc' : priority_class) (k : Nat) (h : lookupClass cs cid = some pc)
    (hf : f pc' = f pc + k) : classSum f (updateClass cs cid pc') = classSum f cs + k := by
  have := classSum_update f cs cid pc pc' h
  omega

theorem classSum_update_sub (f : priority_class → Nat) (cs : List (Nat × priority_class))
    (cid : Nat) (pc pc' : priority_class) (k : Nat) (h : lookupClass cs cid = some pc)
    (hf : f pc = f pc' + k) : classSum f (updateClass cs cid pc') + k = classSum f cs := by
  have := classSum_update f cs cid pc pc' h
  omega

theorem inv_queue (s : fair_queue) (cid : Nat) (desc : fair_queue_ticket) (fid : Nat)
    (hs : s.Inv) : (s.queue cid desc fid).Inv := by
  cases hl : lookupClass s.all_classes cid with
  | none =>
    simpa [fair_queue.queue, hl] using hs
  | some pc =>
    have hmem_of_queued : pc.queued = true → cid ∈ s.handles :=
      fun h => (hs.queued_iff cid pc hl).mp h
    have hnot_of_unqueued : pc.queued = false → cid ∉ s.handles := by
      intro h hmem
      rw [(hs.queued_iff cid pc hl).mpr hmem] at h
      exact Bool.noConfusion h
    refine
      { cap_eq := by simpa [fair_queue.queue, hl] using hs.cap_eq
        cap_w_lt := by simpa [fair_queue.queue, hl] using hs.cap_w_lt
        cap_s_lt := by simpa [fair_queue.queue, hl] using hs.cap_s_lt
        exec_w := by simpa [fair_queue.queue, hl] using hs.exec_w
        exec_s := by simpa [fair_queue.queue, hl] using hs.exec_s
        exec_w_le := by simpa [fair_queue.queue, hl] using hs.exec_w_le
        exec_s_le := by simpa [fair_queue.queue, hl] using hs.exec_s_le
        exec_n := by simpa [fair_queue.queue, hl] using hs.exec_n
        exec_n_le := by simpa [fair_queue.queue, hl] using hs.exec_n_le
        queued_w := ?_
        queued_s := ?_
        queued_n := ?_
        fifo := ?_
        handles_nodup := ?_
        queued_iff := ?_
        handles_reg := ?_
        handles_pending := ?_
        keys_nodup := by simpa [fair_queue.queue, hl, keys_update] using hs.keys_nodup
        keys_lt := ?_
        shares_pos := ?_ }
    · have h3 := classSum_update_add (fun pc => reqWeightSum pc.queue) s.all_classes cid pc
        { pc with queue := pc.queue ++ [⟨fid, desc⟩], queued := true } desc.weight hl
        (reqWeightSum_append pc.queue ⟨fid, desc⟩)
      simp only [fair_queue.queue, hl, pendW, fair_queue_ticket.add]
      rw [h3, hs.queued_w, uadd_mod_left]
      rfl
    · have h3 := classSum_update_add (fun pc => reqSizeSum pc.queue) s.all_classes cid pc
        { pc with queue := pc.queue ++ [⟨fid, desc⟩], queued := true } desc.size hl
        (reqSizeSum_append pc.queue ⟨fid, desc⟩)
      simp only [fair_queue.queue, hl, pendS, fair_queue_ticket.add]
      rw [h3, hs.queued_s, uadd_mod_left]
      rfl
    · have h3 := classSum_update_add (fun pc => pc.queue.length) s.all_classes cid pc
        { pc with queue := pc.queue ++ [⟨fid, desc⟩], queued := true } 1 hl
        (by simp)
      simp only [fair_queue.queue, hl, pendCount]
      rw [h3, hs.queued_n, uadd_mod_left]
      rfl
    · intro c
      have hold := hs.fifo c
      simp only [servedFids, submittedFids, pendingFids] at hold ⊢
      simp only [fair_queue.queue, hl, log_fids_append]
      by_cases hc : cid = c
      · subst hc
        rw [lookup_update_self s.all_classes cid pc _ hl]
        rw [hl] at hold
        simp only [if_pos rfl, List.map_append, List.map_cons, List.map_nil]
        rw [← List.append_assoc, hold]
        simp
      · rw [lookup_update_ne s.all_classes cid c _ (fun he => hc he.symm)]
        simp only [if_neg hc, List.append_nil]
        exact hold
    · cases hq : pc.queued with
      | true =>
        simp only [fair_queue.queue, hl, hq, if_pos rfl]
        exact hs.handles_nodup
      | false =>
        simp only [fair_queue.queue, hl, hq]
        rw [if_neg (fun hh => Bool.noConfusion hh)]
        rw [List.nodup_append]
        refine ⟨hs.handles_nodup, List.nodup_singleton cid, ?_⟩
        intro a ha hb
        rw [List.mem_singleton] at hb
        subst hb
        exact hnot_of_unqueued hq ha
    · intro c pc' h
      simp only [fair_queue.queue, hl] at h ⊢
      by_cases hc : c = cid
      · subst hc
        rw [lookup_update_self s.all_classes c pc _ hl] at h
        simp only [Option.some.injEq] at h
        subst h
        cases hq : pc.queued with
        | true =>
          rw [if_pos rfl]
          constructor
          · intro _; exact hmem_of_queued hq
          · intro _; trivial
        | false =>
          rw [if_neg (fun hh => Bool.noConfusion hh)]
          constructor
          · intro _; exact List.mem_append_right _ (List.mem_singleton.mpr rfl)
          · intro _; trivial
      · rw [lookup_update_ne s.all_classes cid c _ hc] at h
        have hold := hs.queued_iff c pc' h
        cases hq : pc.queued with
        | true =>
          rw [if_pos rfl]
          exact hold
        | false =>
          rw [if_neg (fun hh => Bool.noConfusion hh)]
          rw [hold]
          constructor
          · intro hm; exact List.mem_append_left _ hm
          · intro hm
            rcases List.mem_append.mp hm with hm | hm
            · exact hm
            · exact absurd (List.mem_singleton.mp hm) hc
    · intro c hc
      simp only [fair_queue.queue, hl] at hc ⊢
      by_cases hcc : c = cid
      · subst hcc
        exact ⟨_, lookup_update_self s.all_classes c pc _ hl⟩
      · refine ?_
        have hcs : c ∈ s.handles := by
          cases hq : pc.queued with
          | true => rw [hq] at hc; simpa using hc
          | false =>
            rw [hq] at hc
            simp at hc
            rcases hc with hm | hm
            · exact hm
            · exact absurd hm hcc
        obtain ⟨pc', hpc'⟩ := hs.handles_reg c hcs
        exact ⟨pc', by rw [lookup_update_ne s.all_classes cid c _ hcc]; exact hpc'⟩
    · intro c hc pc' h
      simp only [fair_queue.queue, hl] at hc h ⊢
      by_cases hcc : c = cid
      · subst hcc
        rw [lookup_update_self s.all_classes c pc _ hl] at h
        simp only [Option.some.injEq] at h
        subst h
        simp
      · rw [lookup_update_ne s.all_classes cid c _ hcc] at h
        have hcs : c ∈ s.handles := by
          cases hq : pc.queued with
          | true => rw [hq] at hc; simpa using hc
          | false =>
            rw [hq] at hc
            simp at hc
            rcases hc with hm | hm
            · exact hm
            · exact absurd hm hcc
        exact hs.handles_pending c hcs pc' h
    · intro kp hkp
      simp only [fair_queue.queue, hl] at hkp ⊢
      have : kp.1 ∈ (updateClass s.all_classes cid _).map Prod.fst :=
        List.mem_map_of_mem Prod.fst hkp
      rw [keys_update] at this
      simp only [List.mem_map] at this
      obtain ⟨kq, hkq, he⟩ := this
      have := hs.keys_lt kq hkq
      omega
    · intro c pc' h
      simp only [fair_queue.queue, hl] at h
      by_cases hc : c = cid
      · subst hc
        rw [lookup_update_self s.all_classes c pc _ hl] at h
        simp only [Option.some.injEq] at h
        subst h
        exact hs.shares_pos c pc hl
      · rw [lookup_update_ne s.all_classes cid c _ hc] at h
        exact hs.shares_pos c pc' h

theorem inv_notify (s : fair_queue) (i : Nat) (d : fair_queue_ticket) (hs : s.Inv)
    (hd : s.outstanding[i]? = some d) :
    ({ s.notify_requests_finished d 1 with outstanding := s.outstanding.eraseIdx i }).Inv := by
  have hcapw : s.maximum_capacity.weight = s.config.max_req_count := by rw [hs.cap_eq]
  refine
    { cap_eq := hs.cap_eq
      cap_w_lt := hs.cap_w_lt
      cap_s_lt := hs.cap_s_lt
      exec_w := ?_
      exec_s := ?_
      exec_w_le := ?_
      exec_s_le := ?_
      exec_n := ?_
      exec_n_le := ?_
      queued_w := hs.queued_w
      queued_s := hs.queued_s
      queued_n := hs.queued_n
      fifo := hs.fifo
      handles_nodup := hs.handles_nodup
      queued_iff := hs.queued_iff
      handles_reg := hs.handles_reg
      handles_pending := hs.handles_pending
      keys_nodup := hs.keys_nodup
      keys_lt := hs.keys_lt
      shares_pos := hs.shares_pos }
  · have hw := sum_eraseIdx (fun t => t.weight) s.outstanding i d hd
    have hwle := getElem_le_sum (fun t => t.weight) s.outstanding i d hd
    have h2 := hs.exec_w
    have h3 := hs.exec_w_le
    have h4 := hs.cap_w_lt
    show usub s.resources_executing.weight d.weight =
      ticketWeightSum (s.outstanding.eraseIdx i)
    simp only [ticketWeightSum] at *
    rw [h2, usub_exact _ _ hwle (by omega)]
    omega
  · have hw := sum_eraseIdx (fun t => t.size) s.outstanding i d hd
    have hwle := getElem_le_sum (fun t => t.size) s.outstanding i d hd
    have h2 := hs.exec_s
    have h3 := hs.exec_s_le
    have h4 := hs.cap_s_lt
    show usub s.resources_executing.size d.size = ticketSizeSum (s.outstanding.eraseIdx i)
    simp only [ticketSizeSum] at *
    rw [h2, usub_exact _ _ hwle (by omega)]
    omega
  · have hw := sum_eraseIdx (fun t => t.weight) s.outstanding i d hd
    have h3 := hs.exec_w_le
    show ticketWeightSum (s.outstanding.eraseIdx i) ≤ s.maximum_capacity.weight
    simp only [ticketWeightSum] at *
    omega
  · have hw := sum_eraseIdx (fun t => t.size) s.outstanding i d hd
    have h3 := hs.exec_s_le
    show ticketSizeSum (s.outstanding.eraseIdx i) ≤ s.maximum_capacity.size
    simp only [ticketSizeSum] at *
    omega
  · have hlen := length_eraseIdx_of_getElem s.outstanding i d hd
    have h2 := hs.exec_n
    have h3 := hs.exec_n_le
    have h4 := hs.cap_w_lt
    show usub s.requests_executing 1 = (s.outstanding.eraseIdx i).length
    rw [h2, usub_exact _ _ (by omega) (by omega)]
    omega
  · have hlen := length_eraseIdx_of_getElem s.outstanding i d hd
    have h3 := hs.exec_n_le
    show (s.outstanding.eraseIdx i).length ≤ s.config.max_req_count
    omega

theorem inv_dispatch_one (s : fair_queue) (hs : s.Inv) (hcd : s.can_dispatch = true) :
    s.dispatch_one.Inv := by
  cases ht : s.top_priority_class with
  | none =>
    simp only [fair_queue.can_dispatch, ht] at hcd
    exact Bool.noConfusion hcd
  | some cid =>
    cases hl : lookupClass s.all_classes cid with
    | none =>
      simp only [fair_queue.can_dispatch, ht, hl] at hcd
      exact Bool.noConfusion hcd
    | some pc =>
      cases hq : pc.queue with
      | nil =>
        simp only [fair_queue.can_dispatch, ht, hl, hq] at hcd
        exact Bool.noConfusion hcd
      | cons r rest =>
        simp only [fair_queue.can_dispatch, ht, hl, hq, Bool.and_eq_true,
          decide_eq_true_eq] at hcd
        obtain ⟨⟨hgw, hgs⟩, hgn⟩ := hcd
        have hcid_mem : cid ∈ s.handles := top_mem s cid ht
        have hmcap : s.maximum_capacity.weight = s.config.max_req_count := by rw [hs.cap_eq]
        have hgw2 : ticketWeightSum s.outstanding + r.desc.weight ≤
            s.maximum_capacity.weight := by rw [← hs.exec_w]; exact hgw
        have hgs2 : ticketSizeSum s.outstanding + r.desc.size ≤ s.maximum_capacity.size := by
          rw [← hs.exec_s]; exact hgs
        have hgn2 : s.outstanding.length + 1 ≤ s.config.max_req_count := by
          rw [← hs.exec_n]; exact hgn
        have hcapw := hs.cap_w_lt
        have hcaps := hs.cap_s_lt
        simp only [fair_queue.dispatch_one, ht, hl, hq]
        set pcN : priority_class := ({ pc with queue := rest, accumulated := pc.accumulated + s.acc_increment pc r.desc, queued := !rest.isEmpty }) with hpcN
        have hmem_of : ∀ c, c ≠ cid →
            c ∈ (if rest.isEmpty then s.handles.erase cid
                 else s.handles.erase cid ++ [cid]) → c ∈ s.handles := by
          intro c hc hcm
          by_cases hre : rest.isEmpty
          · rw [if_pos hre] at hcm
            exact (List.mem_erase_of_ne hc).mp hcm
          · rw [if_neg hre] at hcm
            rcases List.mem_append.mp hcm with hm | hm
            · exact (List.mem_erase_of_ne hc).mp hm
            · exact absurd (List.mem_singleton.mp hm) hc
        refine
          { cap_eq := hs.cap_eq
            cap_w_lt := hs.cap_w_lt
            cap_s_lt := hs.cap_s_lt
            exec_w := ?_
            exec_s := ?_
            exec_w_le := ?_
            exec_s_le := ?_
            exec_n := ?_
            exec_n_le := ?_
            queued_w := ?_
            queued_s := ?_
            queued_n := ?_
            fifo := ?_
            handles_nodup := ?_
            queued_iff := ?_
            handles_reg := ?_
            handles_pending := ?_
            keys_nodup := ?_
            keys_lt := ?_
            shares_pos := ?_ }
        · show uadd s.resources_executing.weight r.desc.weight =
            ticketWeightSum (s.outstanding ++ [r.desc])
          rw [ticketWeightSum_append, hs.exec_w, uadd_exact _ _ (by omega)]
        · show uadd s.resources_executing.size r.desc.size =
            ticketSizeSum (s.outstanding ++ [r.desc])
          rw [ticketSizeSum_append, hs.exec_s, uadd_exact _ _ (by omega)]
        · show ticketWeightSum (s.outstanding ++ [r.desc]) ≤ s.maximum_capacity.weight
          rw [ticketWeightSum_append]
          omega
        · show ticketSizeSum (s.outstanding ++ [r.desc]) ≤ s.maximum_capacity.size
          rw [ticketSizeSum_append]
          omega
        · show uadd s.requests_executing 1 = (s.outstanding ++ [r.desc]).length
          rw [hs.exec_n, uadd_exact _ _ (by omega)]
          simp
        · show (s.outstanding ++ [r.desc]).length ≤ s.config.max_req_count
          simp only [List.length_append, List.length_singleton]
          omega
        · have hfpc : reqWeightSum pc.queue = r.desc.weight + reqWeightSum rest := by
            rw [hq]; simp [reqWeightSum]
          have h5 : reqWeightSum pc.queue ≤
              classSum (fun pc => reqWeightSum pc.queue) s.all_classes :=
            classSum_le (fun pc => reqWeightSum pc.queue) s.all_classes cid pc hl
          have h3 : classSum (fun pc => reqWeightSum pc.queue)
                (updateClass s.all_classes cid pcN) + r.desc.weight =
              classSum (fun pc => reqWeightSum pc.queue) s.all_classes :=
            classSum_update_sub _ _ _ _ _ _ hl
              (by show reqWeightSum pc.queue = reqWeightSum rest + r.desc.weight; omega)
          have hle : r.desc.weight ≤ pendW s.all_classes := by
            simp only [pendW]; omega
          show usub s.resources_queued.weight r.desc.weight =
            pendW (updateClass s.all_classes cid pcN) % U32
          rw [hs.queued_w, usub_mod_left _ _ hle]
          have h6 : pendW (updateClass s.all_classes cid pcN) =
              pendW s.all_classes - r.desc.weight := by
            simp only [pendW]; omega
          rw [h6]
        · have hfpc : reqSizeSum pc.queue = r.desc.size + reqSizeSum rest := by
            rw [hq]; simp [reqSizeSum]
          have h5 : reqSizeSum pc.queue ≤
              classSum (fun pc => reqSizeSum pc.queue) s.all_classes :=
            classSum_le (fun pc => reqSizeSum pc.queue) s.all_classes cid pc hl
          have h3 : classSum (fun pc => reqSizeSum pc.queue)
                (updateClass s.all_classes cid pcN) + r.desc.size =
              classSum (fun pc => reqSizeSum pc.queue) s.all_classes :=
            classSum_update_sub _ _ _ _ _ _ hl
              (by show reqSizeSum pc.queue = reqSizeSum rest + r.desc.size; omega)
          have hle : r.desc.size ≤ pendS s.all_classes := by
            simp only [pendS]; omega
          show usub s.resources_queued.size r.desc.size =
            pendS (updateClass s.all_classes cid pcN) % U32
          rw [hs.queued_s, usub_mod_left _ _ hle]
          have h6 : pendS (updateClass s.all_classes cid pcN) =
              pendS s.all_classes - r.desc.size := by
            simp only [pendS]; omega
          rw [h6]
        · have hfpc : pc.queue.length = 1 + rest.length := by
            rw [hq]; simp [Nat.add_comm]
          have h5 : pc.queue.length ≤
              classSum (fun pc => pc.queue.length) s.all_classes :=
            classSum_le (fun pc => pc.queue.length) s.all_classes cid pc hl
          have h3 : classSum (fun pc => pc.queue.length)
                (updateClass s.all_classes cid pcN) + 1 =
              classSum (fun pc => pc.queue.length) s.all_classes :=
            classSum_update_sub _ _ _ _ _ _ hl
              (by show pc.queue.length = rest.length + 1; omega)
          have hle : 1 ≤ pendCount s.all_classes := by
            simp only [pendCount]; omega
          show usub s.requests_queued 1 = pendCount (updateClass s.all_classes cid pcN) % U32
          rw [hs.queued_n, usub_mod_left _ _ hle]
          have h6 : pendCount (updateClass s.all_classes cid pcN) =
              pendCount s.all_classes - 1 := by
            simp only [pendCount]; omega
          rw [h6]
        · intro c
          have hold := hs.fifo c
          simp only [servedFids, submittedFids, pendingFids] at hold ⊢
          rw [log_fids_append]
          by_cases hc : cid = c
          · subst hc
            simp only [lookup_update_self s.all_classes cid pc pcN hl, hpcN, if_pos rfl,
              List.append_assoc, List.singleton_append]
            simp only [hl, hq, List.map_cons] at hold
            exact hold
          · rw [lookup_update_ne s.all_classes cid c pcN (fun he => hc he.symm)]
            simp only [if_neg hc, List.append_nil]
            exact hold
        · show (if rest.isEmpty then s.handles.erase cid
                else s.handles.erase cid ++ [cid]).Nodup
          by_cases hre : rest.isEmpty
          · rw [if_pos hre]
            exact hs.handles_nodup.erase cid
          · rw [if_neg hre, List.nodup_append]
            refine ⟨hs.handles_nodup.erase cid, List.nodup_singleton cid, ?_⟩
            intro a ha hb
            rw [List.mem_singleton] at hb
            subst hb
            exact hs.handles_nodup.not_mem_erase ha
        · intro c pc'' h
          by_cases hc : c = cid
          · subst hc
            rw [lookup_update_self s.all_classes c pc pcN hl] at h
            injection h with he
            subst he
            by_cases hre : rest.isEmpty
            · rw [if_pos hre]
              refine iff_of_false ?_ hs.handles_nodup.not_mem_erase
              simp [hpcN, hre]
            · rw [if_neg hre]
              refine iff_of_true ?_ (List.mem_append_right _ (List.mem_singleton.mpr rfl))
              cases hb : rest.isEmpty with
              | true => exact absurd hb hre
              | false => simp [hpcN, hb]
          · rw [lookup_update_ne s.all_classes cid c pcN hc] at h
            rw [hs.queued_iff c pc'' h]
            by_cases hre : rest.isEmpty
            · rw [if_pos hre, List.mem_erase_of_ne hc]
            · rw [if_neg hre]
              constructor
              · intro hm
                exact List.mem_append_left _ ((List.mem_erase_of_ne hc).mpr hm)
              · intro hm
                rcases List.mem_append.mp hm with hm | hm
                · exact (List.mem_erase_of_ne hc).mp hm
                · exact absurd (List.mem_singleton.mp hm) hc
        · intro c hcm
          by_cases hc : c = cid
          · subst hc
            exact ⟨pcN, lookup_update_self s.all_classes c pc pcN hl⟩
          · obtain ⟨pc'', hpc''⟩ := hs.handles_reg c (hmem_of c hc hcm)
            exact ⟨pc'', by rw [lookup_update_ne s.all_classes cid c pcN hc]; exact hpc''⟩
        · intro c hcm pc'' h
          by_cases hc : c = cid
          · subst hc
            rw [lookup_update_self s.all_classes c pc pcN hl] at h
            injection h with he
            subst he
            by_cases hre : rest.isEmpty
            · rw [if_pos hre] at hcm
              exact absurd hcm hs.handles_nodup.not_mem_erase
            · show rest ≠ []
              intro hnil
              exact hre (by rw [hnil]; rfl)
          · rw [lookup_update_ne s.all_classes cid c pcN hc] at h
            exact hs.handles_pending c (hmem_of c hc hcm) pc'' h
        · show ((updateClass s.all_classes cid pcN).map Prod.fst).Nodup
          rw [keys_update]
          exact hs.keys_nodup
        · intro kp hkp
          have : kp.1 ∈ (updateClass s.all_classes cid pcN).map Prod.fst :=
            List.mem_map_of_mem Prod.fst hkp
          rw [keys_update] at this
          simp only [List.mem_map] at this
          obtain ⟨kq, hkq, he⟩ := this
          have := hs.keys_lt kq hkq
          show kp.1 < s.next_id
          omega
        · intro c pc'' h
          by_cases hc : c = cid
          · subst hc
            rw [lookup_update_self s.all_classes c pc pcN hl] at h
            injection h with he
            subst he
            show 1 ≤ pc.shares
            exact hs.shares_pos c pc hl
          · rw [lookup_update_ne s.all_classes cid c pcN hc] at h
            exact hs.shares_pos c pc'' h

theorem inv_normalize_stats (s : fair_queue) (f : ℚ) (hs : s.Inv) :
    (s.normalize_stats f).Inv := by
  refine
    { cap_eq := hs.cap_eq
      cap_w_lt := hs.cap_w_lt
      cap_s_lt := hs.cap_s_lt
      exec_w := hs.exec_w
      exec_s := hs.exec_s
      exec_w_le := hs.exec_w_le
      exec_s_le := hs.exec_s_le
      exec_n := hs.exec_n
      exec_n_le := hs.exec_n_le
      queued_w := ?_
      queued_s := ?_
      queued_n := ?_
      fifo := ?_
      handles_nodup := hs.handles_nodup
      queued_iff := ?_
      handles_reg := ?_
      handles_pending := ?_
      keys_nodup := ?_
      keys_lt := ?_
      shares_pos := ?_ }
  · have h := classSum_map_decay (fun pc => reqWeightSum pc.queue) s.all_classes f
      (fun pc => rfl)
    show s.resources_queued.weight = classSum (fun pc => reqWeightSum pc.queue)
      (s.all_classes.map (fun kp => (kp.1, kp.2.decay f))) % U32
    rw [h]
    exact hs.queued_w
  · have h := classSum_map_decay (fun pc => reqSizeSum pc.queue) s.all_classes f
      (fun pc => rfl)
    show s.resources_queued.size = classSum (fun pc => reqSizeSum pc.queue)
      (s.all_classes.map (fun kp => (kp.1, kp.2.decay f))) % U32
    rw [h]
    exact hs.queued_s
  · have h := classSum_map_decay (fun pc => pc.queue.length) s.all_classes f
      (fun pc => rfl)
    show s.requests_queued = classSum (fun pc => pc.queue.length)
      (s.all_classes.map (fun kp => (kp.1, kp.2.decay f))) % U32
    rw [h]
    exact hs.queued_n
  · intro c
    have hold := hs.fifo c
    simp only [servedFids, submittedFids, pendingFids] at hold ⊢
    rw [show (s.normalize_stats f).all_classes =
      s.all_classes.map (fun kp => (kp.1, kp.2.decay f)) from rfl]
    rw [lookup_map_decay]
    cases hl : lookupClass s.all_classes c with
    | none =>
      rw [hl] at hold
      simpa using hold
    | some pc =>
      rw [hl] at hold
      simpa [priority_class.decay] using hold
  · intro c pc' h
    rw [show (s.normalize_stats f).all_classes =
      s.all_classes.map (fun kp => (kp.1, kp.2.decay f)) from rfl, lookup_map_decay] at h
    cases hl : lookupClass s.all_classes c with
    | none => rw [hl] at h; simp at h
    | some pc =>
      rw [hl] at h
      simp only [Option.map_some', Option.some.injEq] at h
      subst h
      simpa [priority_class.decay] using hs.queued_iff c pc hl
  · intro c hc
    obtain ⟨pc, hpc⟩ := hs.handles_reg c hc
    refine ⟨pc.decay f, ?_⟩
    rw [show (s.normalize_stats f).all_classes =
      s.all_classes.map (fun kp => (kp.1, kp.2.decay f)) from rfl, lookup_map_decay, hpc]
    rfl
  · intro c hc pc' h
    rw [show (s.normalize_stats f).all_classes =
      s.all_classes.map (fun kp => (kp.1, kp.2.decay f)) from rfl, lookup_map_decay] at h
    cases hl : lookupClass s.all_classes c with
    | none => rw [hl] at h; simp at h
    | some pc =>
      rw [hl] at h
      simp only [Option.map_some', Option.some.injEq] at h
      subst h
      simpa [priority_class.decay] using hs.handles_pending c hc pc hl
  · show ((s.all_classes.map (fun kp => (kp.1, kp.2.decay f))).map Prod.fst).Nodup
    rw [keys_map_decay]
    exact hs.keys_nodup
  · intro kp hkp
    show kp.1 < s.next_id
    simp only [fair_queue.normalize_stats, List.mem_map] at hkp
    obtain ⟨kq, hkq, he⟩ := hkp
    have := hs.keys_lt kq hkq
    rw [← he]
    exact this
  · intro c pc' h
    rw [show (s.normalize_stats f).all_classes =
      s.all_classes.map (fun kp => (kp.1, kp.2.decay f)) from rfl, lookup_map_decay] at h
    cases hl : lookupClass s.all_classes c with
    | none => rw [hl] at h; simp at h
    | some pc =>
      rw [hl] at h
      simp only [Option.map_some', Option.some.injEq] at h
      subst h
      simpa [priority_class.decay] using hs.shares_pos c pc hl

theorem inv_dispatch_loop (n : Nat) (s : fair_queue) (hs : s.Inv) :
    (fair_queue.dispatch_loop n s).Inv := by
  induction n generalizing s with
  | zero => exact hs
  | succ m ih =>
    simp only [fair_queue.dispatch_loop]
    by_cases hcd : s.can_dispatch
    · rw [if_pos hcd]
      exact ih s.dispatch_one (inv_dispatch_one s hs hcd)
    · rw [if_neg hcd]
      exact hs

theorem inv_dispatch_requests (s : fair_queue) (f : ℚ) (hs : s.Inv) :
    (s.dispatch_requests f).Inv :=
  inv_dispatch_loop _ _ (inv_normalize_stats s f hs)

/-- Every reachable fair-queue state satisfies the master invariant. -/
theorem inv_reachable (s : fair_queue) (h : s.Reachable) : s.Inv := by
  induction h with
  | init cfg => exact inv_start cfg
  | register s shares _ ih => exact inv_register s shares ih
  | update s cid shares _ ih => exact inv_update_shares s cid shares ih
  | unregister s cid s' _ hu ih => exact inv_unregister s cid s' ih hu
  | enqueue s cid w sz fid _ ih => exact inv_queue s cid _ fid ih
  | dispatch s f hf _ ih => exact inv_dispatch_requests s f ih
  | notify s i d _ hd ih => exact inv_notify s i d ih hd

/-! ### Reachability of the concrete states -/

theorem sReg_reachable : sReg.Reachable :=
  fair_queue.Reachable.register _ 5 (fair_queue.Reachable.init cfgW)

theorem sEnq_reachable : sEnq.Reachable :=
  fair_queue.Reachable.enqueue _ 0 2 30 7 sReg_reachable

theorem sDis_reachable : sDis.Reachable :=
  fair_queue.Reachable.dispatch _ 1 one_pos sEnq_reachable

theorem sFin_reachable : sFin.Reachable :=
  fair_queue.Reachable.notify _ 0 ⟨2 % U32, 30 % U32⟩ sDis_reachable (by decide)

/-! ### Claim theorems -/

/-- C1: in every state reachable by any sequence of `register_priority_class`,
`queue`, `dispatch_requests` and `notify_requests_finished` calls (the latter
matched to admitted work), `resources_currently_executing()` never exceeds the
configured maximum capacity ticket (component-wise), and the executing request
count never exceeds the configured maximum request count. -/
theorem C1_capacity_bound (s : fair_queue) (h : s.Reachable) :
    s.resources_currently_executing.weight ≤ s.maximum_capacity.weight ∧
    s.resources_currently_executing.size ≤ s.maximum_capacity.size ∧
    s.requests_executing ≤ s.config.max_req_count := by
  have hs := inv_reachable s h
  refine ⟨?_, ?_, ?_⟩
  · show s.resources_executing.weight ≤ s.maximum_capacity.weight
    rw [hs.exec_w]
    exact hs.exec_w_le
  · show s.resources_executing.size ≤ s.maximum_capacity.size
    rw [hs.exec_s]
    exact hs.exec_s_le
  · rw [hs.exec_n]
    exact hs.exec_n_le

theorem C1_capacity_bound_witness :
    sDis.resources_currently_executing.weight ≤ sDis.maximum_capacity.weight ∧
    sDis.resources_currently_executing.size ≤ sDis.maximum_capacity.size ∧
    sDis.requests_executing ≤ sDis.config.max_req_count :=
  C1_capacity_bound sDis sDis_reachable

/-- C2: for every reachable state in which every queued item has been admitted
(all class FIFOs are empty) and `notify_requests_finished` has been called
exactly once per admitted item with its ticket (no outstanding admitted work),
`resources_currently_executing()` equals `(0,0)` and
`resources_currently_waiting()` equals `(0,0)`. -/
theorem C2_conservation (s : fair_queue) (h : s.Reachable)
    (hdrained : ∀ kp ∈ s.all_classes, kp.2.queue = [])
    (hfinished : s.outstanding = []) :
    s.resources_currently_executing = ⟨0, 0⟩ ∧
    s.resources_currently_waiting = ⟨0, 0⟩ := by
  have hs := inv_reachable s h
  constructor
  · have hw := hs.exec_w
    have hsz := hs.exec_s
    rw [hfinished] at hw hsz
    simp only [ticketWeightSum, List.map_nil, List.sum_nil] at hw
    simp only [ticketSizeSum, List.map_nil, List.sum_nil] at hsz
    show s.resources_executing = (⟨0, 0⟩ : fair_queue_ticket)
    calc s.resources_executing
        = ⟨s.resources_executing.weight, s.resources_executing.size⟩ := rfl
      _ = ⟨0, 0⟩ := by rw [hw, hsz]
  · have h0w : pendW s.all_classes = 0 :=
      classSum_zero _ _ (fun kp hk => by rw [hdrained kp hk]; rfl)
    have h0s : pendS s.all_classes = 0 :=
      classSum_zero _ _ (fun kp hk => by rw [hdrained kp hk]; rfl)
    have hw := hs.queued_w
    have hsz := hs.queued_s
    rw [h0w, Nat.zero_mod] at hw
    rw [h0s, Nat.zero_mod] at hsz
    show s.resources_queued = (⟨0, 0⟩ : fair_queue_ticket)
    calc s.resources_queued
        = ⟨s.resources_queued.weight, s.resources_queued.size⟩ := rfl
      _ = ⟨0, 0⟩ := by rw [hw, hsz]

theorem C2_conservation_witness :
    sFin.resources_currently_executing = ⟨0, 0⟩ ∧
    sFin.resources_currently_waiting = ⟨0, 0⟩ :=
  C2_conservation sFin sFin_reachable (by decide) (by decide)

/-- C4: in every reachable state, for each class, the fids of requests served
so far (continuations invoked by `dispatch_requests`, in invocation order)
followed by the fids still pending in the class's FIFO equal the fids
submitted to that class by `queue`, in submission order: per-class admission
order is FIFO. -/
theorem C4_fifo_per_class (s : fair_queue) (h : s.Reachable) (cid : Nat) :
    servedFids s cid ++ pendingFids s cid = submittedFids s cid :=
  (inv_reachable s h).fifo cid

theorem C4_fifo_per_class_witness :
    servedFids sDis 0 ++ pendingFids sDis 0 = submittedFids sDis 0 :=
  C4_fifo_per_class sDis sDis_reachable 0

/-- C7: every registered priority class has at least one share in every
reachable state; the `priority_class` constructor clamps with `max(shares,1)`
(so registering with 0 yields shares 1) and `update_shares` clamps with
`max(new_shares,1)` (so updating to 0 yields shares 1): no operation can make
a class's shares zero. -/
theorem C7_shares_clamped (s : fair_queue) (h : s.Reachable) :
    (∀ cid pc, lookupClass s.all_classes cid = some pc → 1 ≤ pc.shares) ∧
    (∀ sh, lookupClass (s.register_priority_class sh).1.all_classes
      (s.register_priority_class sh).2 = some (priority_class.make sh)) ∧
    (priority_class.make 0).shares = 1 ∧
    (∀ n, (priority_class.make n).shares = max n 1) ∧
    (∀ pc : priority_class, (pc.update_shares 0).shares = 1) ∧
    (∀ pc : priority_class, ∀ n, (pc.update_shares n).shares = max n 1) := by
  refine ⟨(inv_reachable s h).shares_pos, ?_, by decide, fun n => rfl, ?_, fun pc n => rfl⟩
  · intro sh
    simp [fair_queue.register_priority_class, lookupClass]
  · intro pc
    show max 0 1 = 1
    decide

theorem C7_shares_clamped_witness :
    (∀ cid pc, lookupClass sReg.all_classes cid = some pc → 1 ≤ pc.shares) ∧
    (∀ sh, lookupClass (sReg.register_priority_class sh).1.all_classes
      (sReg.register_priority_class sh).2 = some (priority_class.make sh)) ∧
    (priority_class.make 0).shares = 1 ∧
    (∀ n, (priority_class.make n).shares = max n 1) ∧
    (∀ pc : priority_class, (pc.update_shares 0).shares = 1) ∧
    (∀ pc : priority_class, ∀ n, (pc.update_shares n).shares = max n 1) :=
  C7_shares_clamped sReg sReg_reachable

/-- C3: each iteration of the dispatch loop of `dispatch_requests` (the loop
body `dispatch_one`, applied while `can_dispatch` holds) serves the class
whose accumulated virtual-service value is globally smallest among the
classes currently linked in the dispatch structure: it pops that class's
oldest pending entry (its continuation is the one invoked, i.e. appended to
the served log), and afterwards the class is linked in the dispatch structure
if and only if it still has pending entries, with its `_queued` flag set
accordingly. -/
theorem C3_dispatch_serves_min (s : fair_queue) (cid : Nat) (pc : priority_class)
    (r : priority_class.request) (rest : List priority_class.request)
    (hnd : s.handles.Nodup)
    (hcd : s.can_dispatch = true)
    (ht : s.top_priority_class = some cid)
    (hl : lookupClass s.all_classes cid = some pc)
    (hq : pc.queue = r :: rest) :
    (∀ c ∈ s.handles, s.accOf cid ≤ s.accOf c) ∧
    (∃ pc', lookupClass s.dispatch_one.all_classes cid = some pc' ∧
      pc'.queue = rest ∧ pc'.queued = !rest.isEmpty) ∧
    (cid ∈ s.dispatch_one.handles ↔ rest ≠ []) ∧
    s.dispatch_one.served = s.served ++ [(cid, r.fid)] := by
  refine ⟨top_min s cid ht, ?_, ?_, ?_⟩
  · simp only [fair_queue.dispatch_one, ht, hl, hq]
    exact ⟨_, lookup_update_self s.all_classes cid pc _ hl, rfl, rfl⟩
  · simp only [fair_queue.dispatch_one, ht, hl, hq]
    by_cases hre : rest.isEmpty
    · rw [if_pos hre]
      have hrnil : rest = [] := by
        cases rest with
        | nil => rfl
        | cons x xs => exact absurd hre (by simp [List.isEmpty])
      exact iff_of_false hnd.not_mem_erase (fun hne => hne hrnil)
    · rw [if_neg hre]
      refine iff_of_true (List.mem_append_right _ (List.mem_singleton.mpr rfl)) ?_
      intro hrnil
      rw [hrnil] at hre
      exact hre rfl
  · simp only [fair_queue.dispatch_one, ht, hl, hq]

theorem C3_dispatch_serves_min_witness :
    sC3.handles.Nodup ∧ sC3.can_dispatch = true ∧
    sC3.top_priority_class = some 1 ∧
    lookupClass sC3.all_classes 1 = some pcC3 ∧
    ((∀ c ∈ sC3.handles, sC3.accOf 1 ≤ sC3.accOf c) ∧
     (∃ pc', lookupClass sC3.dispatch_one.all_classes 1 = some pc' ∧
       pc'.queue = [] ∧ pc'.queued = !(List.isEmpty ([] : List priority_class.request))) ∧
     (1 ∈ sC3.dispatch_one.handles ↔ ([] : List priority_class.request) ≠ []) ∧
     sC3.dispatch_one.served = sC3.served ++ [(1, 200)]) :=
  ⟨by decide, by decide, by decide, by decide,
   C3_dispatch_serves_min sC3 1 pcC3 ⟨200, ⟨1, 1⟩⟩ []
     (by decide) (by decide) (by decide) (by decide) (by decide)⟩

/-- C5: for every reachable state, registered class, ticket and continuation,
`queue` appends the `(ticket, continuation)` pair to the back of the class's
pending FIFO (marking it queued), adds the ticket to the global
queued-resource total and 1 to the queued-request count, links the class into
the dispatch structure only if it was not already linked (so the structure
stays duplicate-free), is total, and never invokes the continuation during
the `queue` call itself (the served log is untouched). -/
theorem C5_queue_behavior (s : fair_queue) (cid : Nat) (desc : fair_queue_ticket)
    (fid : Nat) (pc : priority_class) (h : s.Reachable)
    (hl : lookupClass s.all_classes cid = some pc) :
    lookupClass (s.queue cid desc fid).all_classes cid =
      some { pc with queue := pc.queue ++ [⟨fid, desc⟩], queued := true } ∧
    (s.queue cid desc fid).resources_queued = s.resources_queued.add desc ∧
    (s.queue cid desc fid).requests_queued = uadd s.requests_queued 1 ∧
    (pc.queued = true → (s.queue cid desc fid).handles = s.handles) ∧
    (pc.queued = false →
      (s.queue cid desc fid).handles = s.handles ++ [cid] ∧ cid ∉ s.handles) ∧
    (s.queue cid desc fid).handles.Nodup ∧
    (s.queue cid desc fid).served = s.served := by
  have hs := inv_reachable s h
  have hs' := inv_queue s cid desc fid hs
  refine ⟨?_, ?_, ?_, ?_, ?_, hs'.handles_nodup, ?_⟩
  · simp only [fair_queue.queue, hl]
    exact lookup_update_self s.all_classes cid pc _ hl
  · simp only [fair_queue.queue, hl]
  · simp only [fair_queue.queue, hl]
  · intro hq
    simp only [fair_queue.queue, hl]
    rw [if_pos hq]
  · intro hq
    constructor
    · simp only [fair_queue.queue, hl]
      rw [if_neg (fun hh => by rw [hq] at hh; exact Bool.noConfusion hh)]
    · intro hmem
      rw [(hs.queued_iff cid pc hl).mpr hmem] at hq
      exact Bool.noConfusion hq
  · simp only [fair_queue.queue, hl]

theorem C5_queue_behavior_witness :
    lookupClass ssq.all_classes 0 = some pcQ5 ∧
    ssq.resources_queued = fair_queue_ticket.add sReg.resources_queued ⟨1, 1⟩ ∧
    ssq.requests_queued = uadd sReg.requests_queued 1 ∧
    ((priority_class.make 5).queued = true → ssq.handles = sReg.handles) ∧
    ((priority_class.make 5).queued = false →
      ssq.handles = sReg.handles ++ [0] ∧ 0 ∉ sReg.handles) ∧
    ssq.handles.Nodup ∧
    ssq.served = sReg.served := by
  have h := C5_queue_behavior sReg 0 ⟨1, 1⟩ 9 (priority_class.make 5)
    sReg_reachable (by decide)
  exact h

/-- C6: for every ticket `t` and every axis whose weight and size components
are both non-zero (the documented precondition), `t.normalize(axis)` equals
the sum of the per-dimension ratios `t.weight/axis.weight + t.size/axis.size`;
in particular, for a ticket with one zero component only the other dimension's
ratio contributes. -/
theorem C6_normalize_sum_of_ratios (t axis : fair_queue_ticket)
    (hw : axis.weight ≠ 0) (hs : axis.size ≠ 0) :
    t.normalize axis =
      (t.weight : ℚ) / (axis.weight : ℚ) + (t.size : ℚ) / (axis.size : ℚ) ∧
    (t.weight = 0 → t.normalize axis = (t.size : ℚ) / (axis.size : ℚ)) ∧
    (t.size = 0 → t.normalize axis = (t.weight : ℚ) / (axis.weight : ℚ)) := by
  refine ⟨rfl, ?_, ?_⟩
  · intro h0
    simp [fair_queue_ticket.normalize, h0]
  · intro h0
    simp [fair_queue_ticket.normalize, h0]

theorem C6_normalize_sum_of_ratios_witness :
    ((2 : Nat) ≠ 0 ∧ (3 : Nat) ≠ 0) ∧
    (fair_queue_ticket.normalize ⟨0, 6⟩ ⟨2, 3⟩ =
        ((0 : Nat) : ℚ) / ((2 : Nat) : ℚ) + ((6 : Nat) : ℚ) / ((3 : Nat) : ℚ) ∧
      ((0 : Nat) = 0 →
        fair_queue_ticket.normalize ⟨0, 6⟩ ⟨2, 3⟩ = ((6 : Nat) : ℚ) / ((3 : Nat) : ℚ)) ∧
      ((6 : Nat) = 0 →
        fair_queue_ticket.normalize ⟨0, 6⟩ ⟨2, 3⟩ = ((0 : Nat) : ℚ) / ((2 : Nat) : ℚ))) :=
  ⟨⟨by decide, by decide⟩,
   C6_normalize_sum_of_ratios ⟨0, 6⟩ ⟨2, 3⟩ (by decide) (by decide)⟩

/-- C8: registering a class and immediately unregistering it (no items queued
in between) succeeds and removes the class from the registry; unregistering a
class whose pending queue is non-empty is the asserted/fatal case, modelled
as the `none` result rather than any recoverable state. -/
theorem C8_lifecycle (s : fair_queue) (sh : Nat) :
    (∃ s2, ((s.register_priority_class sh).1.unregister_priority_class
        (s.register_priority_class sh).2) = some s2 ∧
      lookupClass s2.all_classes (s.register_priority_class sh).2 = none) ∧
    (∀ cid pc, lookupClass s.all_classes cid = some pc → pc.queue ≠ [] →
      s.unregister_priority_class cid = none) := by
  constructor
  · refine ⟨{ (s.register_priority_class sh).1 with all_classes := removeClass (s.register_priority_class sh).1.all_classes s.next_id }, ?_, ?_⟩
    · simp [fair_queue.unregister_priority_class, fair_queue.register_priority_class,
        lookupClass, priority_class.make]
    · exact lookup_remove_self _ _
  · intro cid pc hl hq
    simp [fair_queue.unregister_priority_class, hl, hq]

theorem C8_lifecycle_witness :
    (∃ s2, (((fair_queue.start cfgW).register_priority_class 3).1.unregister_priority_class
        ((fair_queue.start cfgW).register_priority_class 3).2) = some s2 ∧
      lookupClass s2.all_classes
        ((fair_queue.start cfgW).register_priority_class 3).2 = none) ∧
    sEnq.unregister_priority_class 0 = none :=
  ⟨(C8_lifecycle (fair_queue.start cfgW) 3).1,
   (C8_lifecycle sEnq 0).2 0 pcEnq (by decide) (by decide)⟩

/-- C9: for all tickets of `uint32_t` components (the well-formedness bound on
`a` is what the C++ type guarantees), ticket subtraction undoes addition,
`(a + b) - b = a`, and ticket addition is commutative and associative. -/
theorem C9_ticket_algebra (a b c : fair_queue_ticket)
    (hw : a.weight < U32) (hs : a.size < U32) :
    (a.add b).sub b = a ∧ a.add b = b.add a ∧ (a.add b).add c = a.add (b.add c) := by
  refine ⟨?_, ?_, ?_⟩
  · show (⟨usub (uadd a.weight b.weight) b.weight, usub (uadd a.size b.size) b.size⟩ :
      fair_queue_ticket) = a
    rw [show usub (uadd a.weight b.weight) b.weight = a.weight by
        simp only [usub, uadd, U32] at *; omega,
      show usub (uadd a.size b.size) b.size = a.size by
        simp only [usub, uadd, U32] at *; omega]
  · show (⟨uadd a.weight b.weight, uadd a.size b.size⟩ : fair_queue_ticket) =
      ⟨uadd b.weight a.weight, uadd b.size a.size⟩
    rw [show uadd a.weight b.weight = uadd b.weight a.weight by simp only [uadd, U32]; omega,
      show uadd a.size b.size = uadd b.size a.size by simp only [uadd, U32]; omega]
  · show (⟨uadd (uadd a.weight b.weight) c.weight,
        uadd (uadd a.size b.size) c.size⟩ : fair_queue_ticket) =
      ⟨uadd a.weight (uadd b.weight c.weight), uadd a.size (uadd b.size c.size)⟩
    rw [show uadd (uadd a.weight b.weight) c.weight =
        uadd a.weight (uadd b.weight c.weight) by simp only [uadd, U32]; omega,
      show uadd (uadd a.size b.size) c.size =
        uadd a.size (uadd b.size c.size) by simp only [uadd, U32]; omega]

theorem C9_ticket_algebra_witness :
    ((3 : Nat) < U32 ∧ (4 : Nat) < U32) ∧
    ((fair_queue_ticket.add ⟨3, 4⟩ ⟨5, 6⟩).sub ⟨5, 6⟩ = ⟨3, 4⟩ ∧
      fair_queue_ticket.add ⟨3, 4⟩ ⟨5, 6⟩ = fair_queue_ticket.add ⟨5, 6⟩ ⟨3, 4⟩ ∧
      (fair_queue_ticket.add ⟨3, 4⟩ ⟨5, 6⟩).add ⟨7, 8⟩ =
        fair_queue_ticket.add ⟨3, 4⟩ (fair_queue_ticket.add ⟨5, 6⟩ ⟨7, 8⟩)) :=
  ⟨⟨by decide, by decide⟩,
   C9_ticket_algebra ⟨3, 4⟩ ⟨5, 6⟩ ⟨7, 8⟩ (by decide) (by decide)⟩

/-- C10: `strictly_less` on tickets holds exactly when both components of the
left ticket are less than the corresponding components of the right ticket;
it is irreflexive and transitive, but not total: `(2,1)` and `(1,2)` are
mutually incomparable. -/
theorem C10_strictly_less_spo (a b c : fair_queue_ticket) :
    (a.strictly_less b = true ↔ a.weight < b.weight ∧ a.size < b.size) ∧
    a.strictly_less a = false ∧
    (a.strictly_less b = true → b.strictly_less c = true →
      a.strictly_less c = true) ∧
    fair_queue_ticket.strictly_less ⟨2, 1⟩ ⟨1, 2⟩ = false ∧
    fair_queue_ticket.strictly_less ⟨1, 2⟩ ⟨2, 1⟩ = false := by
  refine ⟨?_, ?_, ?_, by decide, by decide⟩
  · simp [fair_queue_ticket.strictly_less]
  · simp [fair_queue_ticket.strictly_less]
  · intro h1 h2
    simp only [fair_queue_ticket.strictly_less, Bool.and_eq_true,
      decide_eq_true_eq] at h1 h2 ⊢
    omega

theorem C10_strictly_less_spo_witness :
    ((fair_queue_ticket.strictly_less ⟨1, 1⟩ ⟨2, 2⟩ = true ↔
        (1 : Nat) < 2 ∧ (1 : Nat) < 2) ∧
      fair_queue_ticket.strictly_less ⟨1, 1⟩ ⟨1, 1⟩ = false ∧
      (fair_queue_ticket.strictly_less ⟨1, 1⟩ ⟨2, 2⟩ = true →
        fair_queue_ticket.strictly_less ⟨2, 2⟩ ⟨3, 3⟩ = true →
        fair_queue_ticket.strictly_less ⟨1, 1⟩ ⟨3, 3⟩ = true) ∧
      fair_queue_ticket.strictly_less ⟨2, 1⟩ ⟨1, 2⟩ = false ∧
      fair_queue_ticket.strictly_less ⟨1, 2⟩ ⟨2, 1⟩ = false) :=
  C10_strictly_less_spo ⟨1, 1⟩ ⟨2, 2⟩ ⟨3, 3⟩
